import Mathlib

/-!
# Verification of the jsonl-datasets core

A shallow embedding of the `jsonl_datasets` package
(`src/jsonl_datasets/writers.py`, `readers.py`, `io.py`) together with
proofs about it.

Modelling conventions:

* A shard file's byte content is a `List Char` (the files are UTF-8 text;
  only the `'\n'` byte plays a structural role).  A record serialized by
  `orjson.dumps` is a nonempty, newline-free `List Char` (`wfRec`); the
  serializer is kept abstract (`ser : α → List Char`, and
  `α → Option (List Char)` where a serialization failure matters).
* The writer's target directory is a `List (List Char)`: element `i` is the
  content of `shard_{i:05d}.jsonl`.  For directories produced by the writer
  the shard indices are exactly `0 .. n-1`, so `glob` + lexicographic sort
  of the zero-padded names enumerates exactly this list in order.
* File handles are not modelled: `open(..., "ab")` creates the file when it
  is absent and otherwise positions at the end, so its observable effect on
  directory contents is captured by `openCurrentShardFile`; `flush`/`close`
  do not change file contents (the model keeps no buffer, matching the
  spec's "no in-memory buffering beyond the OS/stream buffer").
-/

/-- The number of lines Python's file iteration (`sum(1 for _ in f)`) sees in
a text file with the given content: every `'\n'` terminates a line, and a
nonempty trailing fragment counts as one more line. -/
def pyLineCount : List Char → Nat
  | [] => 0
  | [_] => 1
  | c :: cs => (if c = '\n' then 1 else 0) + pyLineCount cs

/-- Full split of a file content at `'\n'` (like `str.split("\n")`):
`splitNL "a\nb" = ["a", "b"]`, `splitNL "" = [""]`. -/
def splitNL : List Char → List (List Char)
  | [] => [[]]
  | c :: cs =>
    if c = '\n' then [] :: splitNL cs
    else
      match splitNL cs with
      | [] => [[c]]
      | g :: gs => (c :: g) :: gs

/-- The records stored in a shard file: the newline-separated fields, with
the empty file holding no records (the writer never writes a trailing
newline, so nonempty well-formed shard content splits into its records). -/
def fileRecords (s : List Char) : List (List Char) :=
  if s = [] then [] else splitNL s

/-- Newline-separated concatenation, the shard file format produced by
`JsonlDatasetWriter`: records joined by single `'\n'` separators, no
leading or trailing newline. -/
def joinNL : List (List Char) → List Char
  | [] => []
  | [r] => r
  | r :: rs => r ++ '\n' :: joinNL rs

/-- A well-formed serialized record: nonempty and newline-free (this is what
`orjson.dumps` produces for any JSON value — compact, single-line). -/
def wfRec (r : List Char) : Prop := r ≠ [] ∧ '\n' ∉ r

instance : DecidablePred wfRec := fun r => by
  unfold wfRec; infer_instance

/-- No leading and no trailing blank line: the content does not begin with a
newline (first line nonempty) and does not end with one (no empty final
field); `reverse.head?` is the last character. -/
def noEdgeBlank (s : List Char) : Prop :=
  s.head? ≠ some '\n' ∧ s.reverse.head? ≠ some '\n'

instance : DecidablePred noEdgeBlank := fun s => by
  unfold noEdgeBlank; infer_instance

/-! ## Basic lemmas about the file format -/

theorem splitNL_cons (c : Char) (cs : List Char) :
    splitNL (c :: cs) =
      if c = '\n' then [] :: splitNL cs
      else
        match splitNL cs with
        | [] => [[c]]
        | g :: gs => (c :: g) :: gs := rfl

theorem splitNL_ne_nil (s : List Char) : splitNL s ≠ [] := by
  induction s with
  | nil => simp [splitNL]
  | cons c cs ih =>
    rw [splitNL_cons]
    by_cases h : c = '\n'
    · simp [h]
    · simp only [h, if_false]
      cases hs : splitNL cs with
      | nil => simp
      | cons g gs => simp

theorem splitNL_no_nl {s : List Char} (h : '\n' ∉ s) : splitNL s = [s] := by
  induction s with
  | nil => rfl
  | cons c cs ih =>
    have hc : c ≠ '\n' := fun hc => h (hc ▸ List.mem_cons_self c cs)
    have hcs : '\n' ∉ cs := fun hm => h (List.mem_cons_of_mem c hm)
    rw [splitNL_cons, ih hcs]
    simp [hc]

theorem splitNL_append_nl {r : List Char} (s : List Char) (h : '\n' ∉ r) :
    splitNL (r ++ '\n' :: s) = r :: splitNL s := by
  induction r with
  | nil => simp [splitNL]
  | cons c r' ih =>
    have hc : c ≠ '\n' := fun hc => h (hc ▸ List.mem_cons_self c r')
    have hr' : '\n' ∉ r' := fun hm => h (List.mem_cons_of_mem c hm)
    rw [List.cons_append, splitNL_cons, ih hr']
    simp [hc]

theorem joinNL_cons_cons (r s : List Char) (t : List (List Char)) :
    joinNL (r :: s :: t) = r ++ '\n' :: joinNL (s :: t) := by
  rfl

theorem joinNL_ne_nil {rs : List (List Char)} (h0 : rs ≠ [])
    (h : ∀ r ∈ rs, wfRec r) : joinNL rs ≠ [] := by
  match rs with
  | [] => exact absurd rfl h0
  | [r] =>
    have := (h r (List.mem_singleton_self r)).1
    simpa [joinNL] using this
  | r :: s :: t =>
    have := (h r (List.mem_cons_self r _)).1
    rw [joinNL_cons_cons]
    intro hcontra
    exact this (List.append_eq_nil.mp hcontra).1

theorem fileRecords_joinNL {rs : List (List Char)} (h : ∀ r ∈ rs, wfRec r) :
    fileRecords (joinNL rs) = rs := by
  induction rs with
  | nil => rfl
  | cons r rest ih =>
    have hr := h r (List.mem_cons_self r rest)
    have hrest : ∀ x ∈ rest, wfRec x := fun x hx => h x (List.mem_cons_of_mem r hx)
    cases rest with
    | nil =>
      show fileRecords r = [r]
      unfold fileRecords
      simp only [hr.1, if_false]
      exact splitNL_no_nl hr.2
    | cons s t =>
      rw [joinNL_cons_cons]
      have hne : r ++ '\n' :: joinNL (s :: t) ≠ [] := by
        simp
      unfold fileRecords
      simp only [hne, if_false]
      rw [splitNL_append_nl _ hr.2]
      have hrec : fileRecords (joinNL (s :: t)) = s :: t := ih hrest
      have hne2 : joinNL (s :: t) ≠ [] :=
        joinNL_ne_nil (by simp) hrest
      unfold fileRecords at hrec
      simp only [hne2, if_false] at hrec
      rw [hrec]

theorem pyLineCount_no_nl {r : List Char} (h0 : r ≠ []) (h : '\n' ∉ r) :
    pyLineCount r = 1 := by
  induction r with
  | nil => exact absurd rfl h0
  | cons c cs ih =>
    have hc : c ≠ '\n' := fun hc => h (hc ▸ List.mem_cons_self c cs)
    have hcs : '\n' ∉ cs := fun hm => h (List.mem_cons_of_mem c hm)
    cases cs with
    | nil => rfl
    | cons d ds =>
      show (if c = '\n' then 1 else 0) + pyLineCount (d :: ds) = 1
      simp only [hc, if_false, Nat.zero_add]
      exact ih (by simp) hcs

theorem pyLineCount_append_nl (r s : List Char) (h : '\n' ∉ r) :
    pyLineCount (r ++ '\n' :: s) = 1 + pyLineCount s := by
  induction r with
  | nil =>
    cases s with
    | nil => rfl
    | cons d ds =>
      show (if '\n' = '\n' then 1 else 0) + pyLineCount (d :: ds) = 1 + pyLineCount (d :: ds)
      simp
  | cons c cs ih =>
    have hc : c ≠ '\n' := fun hc => h (hc ▸ List.mem_cons_self c cs)
    have hcs : '\n' ∉ cs := fun hm => h (List.mem_cons_of_mem c hm)
    have hne : cs ++ '\n' :: s ≠ [] := by simp
    show pyLineCount (c :: (cs ++ '\n' :: s)) = 1 + pyLineCount s
    cases hx : cs ++ '\n' :: s with
    | nil => exact absurd hx hne
    | cons y ys =>
      show (if c = '\n' then 1 else 0) + pyLineCount (y :: ys) = 1 + pyLineCount s
      simp only [hc, if_false, Nat.zero_add]
      rw [← hx, ih hcs]

theorem pyLineCount_joinNL {rs : List (List Char)} (h : ∀ r ∈ rs, wfRec r) :
    pyLineCount (joinNL rs) = rs.length := by
  induction rs with
  | nil => rfl
  | cons r rest ih =>
    have hr := h r (List.mem_cons_self r rest)
    have hrest : ∀ x ∈ rest, wfRec x := fun x hx => h x (List.mem_cons_of_mem r hx)
    cases rest with
    | nil =>
      show pyLineCount r = 1
      exact pyLineCount_no_nl hr.1 hr.2
    | cons s t =>
      rw [joinNL_cons_cons, pyLineCount_append_nl _ _ hr.2, ih hrest]
      simp [Nat.add_comm]

theorem noEdgeBlank_joinNL {rs : List (List Char)} (h : ∀ r ∈ rs, wfRec r) :
    noEdgeBlank (joinNL rs) := by
  induction rs with
  | nil => exact ⟨by simp [joinNL], by simp [joinNL]⟩
  | cons r rest ih =>
    have hr := h r (List.mem_cons_self r rest)
    have hrest : ∀ x ∈ rest, wfRec x := fun x hx => h x (List.mem_cons_of_mem r hx)
    constructor
    · -- first character is the first character of the first record
      cases rest with
      | nil =>
        show r.head? ≠ some '\n'
        intro hcontra
        exact hr.2 (List.mem_of_mem_head? (Option.mem_def.mpr hcontra))
      | cons s t =>
        rw [joinNL_cons_cons]
        cases r with
        | nil => exact absurd rfl hr.1
        | cons c cs =>
          intro hcontra
          simp only [List.cons_append, List.head?_cons, Option.some.injEq] at hcontra
          exact hr.2 (hcontra ▸ List.mem_cons_self c cs)
    · -- last character is the last character of the last record
      cases rest with
      | nil =>
        show r.reverse.head? ≠ some '\n'
        intro hcontra
        have : '\n' ∈ r.reverse := List.mem_of_mem_head? (Option.mem_def.mpr hcontra)
        exact hr.2 (List.mem_reverse.mp this)
      | cons s t =>
        rw [joinNL_cons_cons]
        have hne2 : joinNL (s :: t) ≠ [] := joinNL_ne_nil (by simp) hrest
        have hrev : (joinNL (s :: t)).reverse ≠ [] := by
          simpa using hne2
        intro hcontra
        rw [List.reverse_append, List.reverse_cons] at hcontra
        rw [List.append_assoc] at hcontra
        cases hx : (joinNL (s :: t)).reverse with
        | nil => exact hrev hx
        | cons y ys =>
          rw [hx] at hcontra
          simp only [List.cons_append, List.head?_cons, Option.some.injEq] at hcontra
          apply ih hrest |>.2
          rw [hx, hcontra]
          rfl

/-! ## The sharded writer (`writers.py`, `JsonlDatasetWriter`)

The writer state holds the constructor parameter `max_shard_size`, the
bookkeeping fields `current_shard` and `num_samples`, and the directory
contents (`dir`, shard index `i` ↦ content of `shard_{i:05d}.jsonl`). -/

structure WriterState where
  maxShardSize : Nat
  currentShard : Nat
  numSamples : Nat
  dir : List (List Char)
deriving DecidableEq, Repr

/-- `_open_current_shard_file`: opening `shard_{current_shard:05d}` with mode
`"ab"` creates the file (empty) when it does not exist and otherwise leaves
its content unchanged.  (The preceding `self.close()` only releases the old
handle.) -/
def openCurrentShardFile (st : WriterState) : WriterState :=
  if st.currentShard < st.dir.length then st
  else { st with dir := st.dir ++ List.replicate (st.currentShard + 1 - st.dir.length) [] }

/-- `_initialize_shard`: the resume step run by the constructor.  If shards
exist, count the lines of the highest-indexed one (Python line iteration =
`pyLineCount`); if it is already full, advance to the next index with count
0.  Then the current shard file is opened (eagerly). -/
def initShard (m : Nat) (d : List (List Char)) : WriterState :=
  match d.getLast? with
  | none => openCurrentShardFile ⟨m, 0, 0, d⟩
  | some last =>
    let count := pyLineCount last
    if m ≤ count then openCurrentShardFile ⟨m, d.length - 1 + 1, 0, d⟩
    else openCurrentShardFile ⟨m, d.length - 1, count, d⟩

/-- Appending bytes to the currently open shard file
(`self.current_shard_file.write(...)`). -/
def appendToCurrent (st : WriterState) (bs : List Char) : WriterState :=
  { st with dir := st.dir.set st.currentShard ((st.dir.getD st.currentShard []) ++ bs) }

/-- `_rotate_shard_if_needed`: start a new shard when the sample limit is
reached. -/
def rotateShardIfNeeded (st : WriterState) : WriterState :=
  if st.maxShardSize ≤ st.numSamples then
    openCurrentShardFile { st with currentShard := st.currentShard + 1, numSamples := 0 }
  else st

/-- `write_line` with a total (always succeeding) serializer: rotate if
needed, write the `"\n"` separator when the shard already holds records,
append the serialized record, increment the count. -/
def writeLine (ser : α → List Char) (st : WriterState) (a : α) : WriterState :=
  let s1 := rotateShardIfNeeded st
  let s2 := if 0 < s1.numSamples then appendToCurrent s1 ['\n'] else s1
  let s3 := appendToCurrent s2 (ser a)
  { s3 with numSamples := s3.numSamples + 1 }

/-- `write_line` with a fallible serializer (`orjson.dumps` may raise).  The
rotation and the separator write happen before serialization is attempted;
on failure (`ser a = none`) the exception propagates with the state mutated
that far (`Except.error`), and the count increment and record append are
skipped. -/
def writeLineE (ser : α → Option (List Char)) (st : WriterState) (a : α) :
    Except WriterState WriterState :=
  let s1 := rotateShardIfNeeded st
  let s2 := if 0 < s1.numSamples then appendToCurrent s1 ['\n'] else s1
  match ser a with
  | none => Except.error s2
  | some bs =>
    let s3 := appendToCurrent s2 bs
    Except.ok { s3 with numSamples := s3.numSamples + 1 }

/-- `close` (and `flush`): release/flush the OS handle; file contents are
unaffected (the model keeps no buffer). -/
def closeW (st : WriterState) : WriterState := st

/-- One writer session: `write_line` for each item in order. -/
def writeAll (ser : α → List Char) (st : WriterState) (items : List α) : WriterState :=
  items.foldl (writeLine ser) st

/-- The canonical shape of every writer state reachable from an empty
directory: `full` lists the records of the completed shards, `cur` the
records of the currently open shard. -/
def writerOf (m : Nat) (full : List (List (List Char))) (cur : List (List Char)) :
    WriterState :=
  { maxShardSize := m, currentShard := full.length, numSamples := cur.length,
    dir := full.map joinNL ++ [joinNL cur] }

/-! ### Writer lemmas -/

theorem getD_append_at_length (l : List α) (x : α) (rest : List α) (d : α) :
    (l ++ x :: rest).getD l.length d = x := by
  induction l with
  | nil => rfl
  | cons a l ih => simpa using ih

theorem set_append_at_length (l : List α) (x y : α) (rest : List α) :
    (l ++ x :: rest).set l.length y = l ++ y :: rest := by
  induction l with
  | nil => rfl
  | cons a l ih => simp [List.set, ih]

theorem joinNL_concat (rs : List (List Char)) (r : List Char) :
    joinNL (rs ++ [r]) = if rs = [] then r else joinNL rs ++ '\n' :: r := by
  induction rs with
  | nil => rfl
  | cons a rest ih =>
    cases rest with
    | nil => rfl
    | cons b t =>
      have h1 : (a :: b :: t) ++ [r] = a :: ((b :: t) ++ [r]) := rfl
      rw [h1]
      have h2 : (b :: t) ++ [r] = b :: (t ++ [r]) := rfl
      rw [h2] at ih ⊢
      rw [joinNL_cons_cons, ih]
      simp [joinNL_cons_cons, List.append_assoc]


theorem getD_mapJoin (full : List (List (List Char))) (x : List Char) (d : List Char) :
    (full.map joinNL ++ [x]).getD full.length d = x := by
  induction full with
  | nil => rfl
  | cons a t ih => simp

theorem set_mapJoin (full : List (List (List Char))) (x y : List Char) :
    (full.map joinNL ++ [x]).set full.length y = full.map joinNL ++ [y] := by
  induction full with
  | nil => rfl
  | cons a t ih => simp [List.set, ih]

theorem getD_mapJoin1 (full : List (List (List Char))) (x y : List Char) (d : List Char) :
    ((full.map joinNL ++ [x]) ++ [y]).getD (full.length + 1) d = y := by
  induction full with
  | nil => rfl
  | cons a t ih => simpa using ih

theorem set_mapJoin1 (full : List (List (List Char))) (x y z : List Char) :
    ((full.map joinNL ++ [x]) ++ [y]).set (full.length + 1) z =
      (full.map joinNL ++ [x]) ++ [z] := by
  induction full with
  | nil => rfl
  | cons a t ih => simp [List.set, ih]

/-- `rotateShardIfNeeded` on a canonical state with a full current shard:
advance the index and create the next (empty) shard file. -/
theorem rotate_writerOf_full (m : Nat) (full : List (List (List Char)))
    (cur : List (List Char)) (hrot : m ≤ cur.length) :
    rotateShardIfNeeded (writerOf m full cur) =
      ⟨m, full.length + 1, 0, (full.map joinNL ++ [joinNL cur]) ++ [[]]⟩ := by
  unfold rotateShardIfNeeded writerOf
  rw [if_pos hrot]
  unfold openCurrentShardFile
  rw [if_neg (by simp)]
  have h1 : full.length + 1 + 1 - (full.map joinNL ++ [joinNL cur]).length = 1 := by
    simp
  simp only [h1, List.replicate_one]

/-- `rotateShardIfNeeded` on a canonical state with a non-full current
shard: no effect. -/
theorem rotate_writerOf_notfull (m : Nat) (full : List (List (List Char)))
    (cur : List (List Char)) (hrot : ¬ m ≤ cur.length) :
    rotateShardIfNeeded (writerOf m full cur) = writerOf m full cur := by
  unfold rotateShardIfNeeded writerOf
  rw [if_neg hrot]


theorem WriterState.ext4 {s t : WriterState} (h1 : s.maxShardSize = t.maxShardSize)
    (h2 : s.currentShard = t.currentShard) (h3 : s.numSamples = t.numSamples)
    (h4 : s.dir = t.dir) : s = t := by
  cases s; cases t; simp_all

/-- Effect of one `write_line` on a canonical state: rotate into a fresh
shard when the current one is full, otherwise extend the current shard. -/
theorem writeLine_writerOf (ser : α → List Char) (m : Nat)
    (full : List (List (List Char))) (cur : List (List Char)) (a : α) :
    writeLine ser (writerOf m full cur) a =
      if m ≤ cur.length then writerOf m (full ++ [cur]) [ser a]
      else writerOf m full (cur ++ [ser a]) := by
  by_cases hrot : m ≤ cur.length
  · rw [if_pos hrot]
    simp only [writeLine]
    rw [rotate_writerOf_full m full cur hrot]
    rw [show (⟨m, full.length + 1, 0, (full.map joinNL ++ [joinNL cur]) ++ [[]]⟩ :
          WriterState).numSamples = 0 from rfl]
    rw [if_neg (Nat.lt_irrefl 0)]
    simp only [appendToCurrent]
    rw [getD_mapJoin1 full (joinNL cur) [] [], set_mapJoin1 full (joinNL cur) [] ([] ++ ser a)]
    apply WriterState.ext4
    · rfl
    · simp [writerOf]
    · rfl
    · simp [writerOf, joinNL]
  · rw [if_neg hrot]
    simp only [writeLine]
    rw [rotate_writerOf_notfull m full cur hrot]
    by_cases hpos : 0 < cur.length
    · have hcur : cur ≠ [] := by
        cases cur
        · simp at hpos
        · simp
      rw [if_pos (show 0 < (writerOf m full cur).numSamples from hpos)]
      simp only [appendToCurrent]
      rw [show (writerOf m full cur).dir = full.map joinNL ++ [joinNL cur] from rfl]
      rw [show (writerOf m full cur).currentShard = full.length from rfl]
      rw [getD_mapJoin full (joinNL cur) [], set_mapJoin full (joinNL cur)]
      rw [getD_mapJoin full (joinNL cur ++ ['\n']) [], set_mapJoin full (joinNL cur ++ ['\n'])]
      apply WriterState.ext4
      · rfl
      · rfl
      · simp [writerOf]
      · rw [show (writerOf m full (cur ++ [ser a])).dir =
              full.map joinNL ++ [joinNL (cur ++ [ser a])] from rfl]
        rw [joinNL_concat cur (ser a), if_neg hcur]
        simp [List.append_assoc]
    · have hcur : cur = [] := by
        cases cur
        · rfl
        · simp at hpos
      subst hcur
      rw [if_neg (show ¬ 0 < (writerOf m full []).numSamples from hpos)]
      simp only [appendToCurrent]
      rw [show (writerOf m full []).dir = full.map joinNL ++ [joinNL []] from rfl]
      rw [show (writerOf m full []).currentShard = full.length from rfl]
      rw [getD_mapJoin full (joinNL []) [], set_mapJoin full (joinNL [])]
      apply WriterState.ext4
      · rfl
      · rfl
      · rfl
      · simp [writerOf, joinNL]

/-- The constructor on an empty directory starts at shard 0, count 0, and
eagerly creates the (empty) shard-0 file. -/
theorem initShard_nil (m : Nat) : initShard m [] = writerOf m [] [] := by
  rfl

/-- `openCurrentShardFile` when the current shard index is exactly one past
the existing files: exactly one new empty file is created. -/
theorem openCSF_eq (st : WriterState) (h : st.currentShard = st.dir.length) :
    openCurrentShardFile st = { st with dir := st.dir ++ [[]] } := by
  unfold openCurrentShardFile
  rw [if_neg (by omega)]
  have h1 : st.currentShard + 1 - st.dir.length = 1 := by omega
  rw [h1, List.replicate_one]

/-- `openCurrentShardFile` when the current shard file already exists: no
effect. -/
theorem openCSF_lt (st : WriterState) (h : st.currentShard < st.dir.length) :
    openCurrentShardFile st = st := by
  unfold openCurrentShardFile
  rw [if_pos h]

/-- The constructor on a canonical directory: resume the last shard when it
is not full, otherwise advance past it, opening (creating) an empty file at
the next index. -/
theorem initShard_writerOf (m : Nat) (full : List (List (List Char)))
    (cur : List (List Char)) (hcur : ∀ r ∈ cur, wfRec r) :
    initShard m (writerOf m full cur).dir =
      if m ≤ cur.length then writerOf m (full ++ [cur]) []
      else writerOf m full cur := by
  have hlast : (writerOf m full cur).dir.getLast? = some (joinNL cur) := by
    simp [writerOf]
  have hdirlen : (writerOf m full cur).dir.length = full.length + 1 := by
    simp [writerOf]
  unfold initShard
  rw [hlast]
  simp only [pyLineCount_joinNL hcur]
  by_cases h : m ≤ cur.length
  · simp only [h, if_true]
    rw [openCSF_eq _ (by simp [writerOf])]
    apply WriterState.ext4
    · rfl
    · show (writerOf m full cur).dir.length - 1 + 1 = (full ++ [cur]).length
      rw [hdirlen]; simp
    · rfl
    · show (writerOf m full cur).dir ++ [[]] = (writerOf m (full ++ [cur]) []).dir
      rw [show (writerOf m full cur).dir = full.map joinNL ++ [joinNL cur] from rfl]
      rw [show (writerOf m (full ++ [cur]) []).dir =
            (full ++ [cur]).map joinNL ++ [joinNL []] from rfl]
      simp [joinNL]
  · simp only [h, if_false]
    rw [openCSF_lt _ (by simp [writerOf])]
    apply WriterState.ext4
    · rfl
    · show (writerOf m full cur).dir.length - 1 = (writerOf m full cur).currentShard
      rw [hdirlen]; rfl
    · rfl
    · rfl

/-! ### The writer as a chunking function -/

/-- Reference chunking: distribute records into shards exactly as the
writer does (close the current chunk when it reached `m`, then place the
next record into a fresh chunk). -/
def chunkAcc (m : Nat) (full : List (List β)) (cur : List β) : List β → List (List β) × List β
  | [] => (full, cur)
  | a :: as =>
    if m ≤ cur.length then chunkAcc m (full ++ [cur]) [a] as
    else chunkAcc m full (cur ++ [a]) as

/-- A writer session from any canonical state is the chunking of the
serialized records. -/
theorem writeAll_writerOf (ser : α → List Char) (m : Nat)
    (items : List α) :
    ∀ (full : List (List (List Char))) (cur : List (List Char)),
    writeAll ser (writerOf m full cur) items =
      writerOf m (chunkAcc m full cur (items.map ser)).1 (chunkAcc m full cur (items.map ser)).2 := by
  induction items with
  | nil => intro full cur; rfl
  | cons a as ih =>
    intro full cur
    show writeAll ser (writeLine ser (writerOf m full cur) a) as = _
    rw [writeLine_writerOf]
    by_cases h : m ≤ cur.length
    · rw [if_pos h, ih]
      simp only [List.map_cons, chunkAcc, h, if_true]
    · rw [if_neg h, ih]
      simp only [List.map_cons, chunkAcc, h, if_false]

/-- Structural properties of the chunking: every closed chunk has exactly
`m` records, the open chunk has at most `m`, the records are conserved in
order, and the open chunk is nonempty whenever anything was written. -/
theorem chunkAcc_props (m : Nat) (hm : 0 < m) :
    ∀ (l : List β) (full : List (List β)) (cur : List β),
      cur.length ≤ m → (∀ x ∈ full, x.length = m) →
      (∀ x ∈ (chunkAcc m full cur l).1, x.length = m) ∧
      (chunkAcc m full cur l).2.length ≤ m ∧
      (chunkAcc m full cur l).1.flatten ++ (chunkAcc m full cur l).2 = full.flatten ++ cur ++ l ∧
      (l = [] → chunkAcc m full cur l = (full, cur)) ∧
      (cur ≠ [] ∨ l ≠ [] → (chunkAcc m full cur l).2 ≠ []) := by
  intro l
  induction l with
  | nil =>
    intro full cur hc hf
    refine ⟨hf, hc, by simp [chunkAcc], fun _ => rfl, ?_⟩
    intro hor
    rcases hor with h | h
    · simpa [chunkAcc] using h
    · exact absurd rfl h
  | cons a as ih =>
    intro full cur hc hf
    by_cases h : m ≤ cur.length
    · have hcm : cur.length = m := Nat.le_antisymm hc h
      have step : chunkAcc m full cur (a :: as) = chunkAcc m (full ++ [cur]) [a] as := by
        simp [chunkAcc, h]
      have hf2 : ∀ x ∈ full ++ [cur], x.length = m := by
        intro x hx
        rcases List.mem_append.mp hx with hx | hx
        · exact hf x hx
        · rw [List.mem_singleton.mp hx]; exact hcm
      have := ih (full ++ [cur]) [a] (by simpa using hm) hf2
      refine ⟨step ▸ this.1, step ▸ this.2.1, ?_, by simp, ?_⟩
      · rw [step]
        rw [this.2.2.1]
        simp [List.append_assoc]
      · intro _
        rw [step]
        exact this.2.2.2.2 (Or.inl (by simp))
    · have step : chunkAcc m full cur (a :: as) = chunkAcc m full (cur ++ [a]) as := by
        simp [chunkAcc, h]
      have hc2 : (cur ++ [a]).length ≤ m := by
        simp only [List.length_append, List.length_singleton]
        omega
      have := ih full (cur ++ [a]) hc2 hf
      refine ⟨step ▸ this.1, step ▸ this.2.1, ?_, by simp, ?_⟩
      · rw [step, this.2.2.1]
        simp [List.append_assoc]
      · intro _
        rw [step]
        exact this.2.2.2.2 (Or.inl (by simp))

theorem join_length_const {m : Nat} {f : List (List β)} (h : ∀ x ∈ f, x.length = m) :
    f.flatten.length = m * f.length := by
  induction f with
  | nil => simp
  | cons a t ih =>
    have ha := h a (List.mem_cons_self a t)
    have ht : ∀ x ∈ t, x.length = m := fun x hx => h x (List.mem_cons_of_mem a hx)
    simp only [List.flatten_cons, List.length_append, ih ht, List.length_cons, ha, Nat.mul_succ]
    omega

theorem ceil_div_eq (m q r : Nat) (h1 : 1 ≤ r) (h2 : r ≤ m) :
    (m * q + r + m - 1) / m = q + 1 := by
  have hm : 0 < m := Nat.lt_of_lt_of_le h1 h2
  cases r with
  | zero => omega
  | succ t =>
    have he : m * q + (t + 1) + m - 1 = t + (q + 1) * m := by
      rw [Nat.succ_mul, Nat.mul_comm q m]
      omega
    rw [he, Nat.add_mul_div_right _ _ hm, Nat.div_eq_of_lt (by omega), Nat.zero_add]

theorem map_fileRecords_joinNL (f : List (List (List Char)))
    (h : ∀ x ∈ f, ∀ r ∈ x, wfRec r) : f.map (fileRecords ∘ joinNL) = f := by
  induction f with
  | nil => rfl
  | cons x t ih =>
    simp only [List.map_cons, Function.comp_apply,
      fileRecords_joinNL (h x (List.mem_cons_self x t)), List.cons.injEq, true_and]
    exact ih (fun y hy => h y (List.mem_cons_of_mem x hy))

/-- One full writer session from an empty directory: construct, write each
item with `write_line`, close; the result is the final directory contents. -/
def writeSession (ser : α → List Char) (m : Nat) (items : List α) : List (List Char) :=
  (closeW (writeAll ser (initShard m []) items)).dir

/-- Two writer sessions on the same directory: write `items1`, close,
re-construct with the same `max_shard_size`, write `items2`, close. -/
def resumeSession (ser : α → List Char) (m : Nat) (items1 items2 : List α) :
    List (List Char) :=
  (closeW (writeAll ser
    (initShard m (closeW (writeAll ser (initShard m []) items1)).dir) items2)).dir

theorem writeSession_eq_chunks (ser : α → List Char) (m : Nat) (items : List α) :
    writeSession ser m items =
      (chunkAcc m [] [] (items.map ser)).1.map joinNL ++
        [joinNL (chunkAcc m [] [] (items.map ser)).2] := by
  unfold writeSession closeW
  rw [initShard_nil, writeAll_writerOf]
  rfl

/-- C2: starting from an empty directory, writing `k ≥ 1` records with
`max_shard_size = m ≥ 1` in one session produces exactly `⌈k/m⌉` shard
files, every file except the last holds exactly `m` records, and the shard
contents concatenated in index order are exactly the serialized records in
write order. -/
theorem C2_writer_roundtrip (ser : α → List Char) (m : Nat) (items : List α)
    (hm : 0 < m) (hk : items ≠ []) (hser : ∀ a, wfRec (ser a)) :
    (writeSession ser m items).length = (items.length + m - 1) / m ∧
    (∀ s ∈ (writeSession ser m items).dropLast, (fileRecords s).length = m) ∧
    ((writeSession ser m items).map fileRecords).flatten = items.map ser := by
  obtain ⟨hfull, hcle, hjoin, -, hne⟩ :=
    chunkAcc_props m hm (items.map ser) [] [] (by simp) (by simp)
  simp only [List.flatten_nil, List.nil_append] at hjoin
  set F := (chunkAcc m [] [] (items.map ser)).1 with hF
  set C := (chunkAcc m [] [] (items.map ser)).2 with hC
  have hCne : C ≠ [] := hne (Or.inr (by simpa using hk))
  have hwfF : ∀ x ∈ F, ∀ r ∈ x, wfRec r := by
    intro x hx r hr
    have : r ∈ F.flatten ++ C := List.mem_append_left _ (List.mem_flatten_of_mem hx hr)
    rw [hjoin] at this
    obtain ⟨a, -, ha⟩ := List.mem_map.mp this
    exact ha ▸ hser a
  have hwfC : ∀ r ∈ C, wfRec r := by
    intro r hr
    have : r ∈ F.flatten ++ C := List.mem_append_right _ hr
    rw [hjoin] at this
    obtain ⟨a, -, ha⟩ := List.mem_map.mp this
    exact ha ▸ hser a
  have hlen : m * F.length + C.length = items.length := by
    have := congrArg List.length hjoin
    simp only [List.length_append, List.length_map] at this
    rw [join_length_const hfull] at this
    exact this
  rw [writeSession_eq_chunks, ← hF, ← hC]
  refine ⟨?_, ?_, ?_⟩
  · simp only [List.length_append, List.length_map, List.length_singleton]
    rw [← hlen, ceil_div_eq m F.length C.length (List.length_pos.mpr hCne) hcle]
  · intro s hs
    rw [List.dropLast_concat] at hs
    obtain ⟨x, hx, hxs⟩ := List.mem_map.mp hs
    rw [← hxs, fileRecords_joinNL (hwfF x hx)]
    exact hfull x hx
  · rw [List.map_append, List.map_map, List.map_singleton]
    have h1 : F.map (fileRecords ∘ joinNL) = F := map_fileRecords_joinNL F hwfF
    rw [h1, fileRecords_joinNL hwfC]
    rw [List.flatten_append, List.flatten_singleton]
    exact hjoin

theorem writeAll_append (ser : α → List Char) (st : WriterState)
    (l1 l2 : List α) :
    writeAll ser st (l1 ++ l2) = writeAll ser (writeAll ser st l1) l2 := by
  unfold writeAll
  induction l1 generalizing st with
  | nil => rfl
  | cons a t ih => exact ih (writeLine ser st a)

/-- Records of the open chunk of a session are serialized inputs, hence
well-formed when the serializer only produces well-formed records. -/
theorem chunk_cur_wf (ser : α → List Char) (m : Nat) (items : List α)
    (hm : 0 < m) (hser : ∀ a, wfRec (ser a)) :
    ∀ r ∈ (chunkAcc m [] [] (items.map ser)).2, wfRec r := by
  obtain ⟨-, -, hjoin, -, -⟩ :=
    chunkAcc_props m hm (items.map ser) [] [] (by simp) (by simp)
  simp only [List.flatten_nil, List.nil_append] at hjoin
  intro r hr
  have : r ∈ (chunkAcc m [] [] (items.map ser)).1.flatten ++
      (chunkAcc m [] [] (items.map ser)).2 := List.mem_append_right _ hr
  rw [hjoin] at this
  obtain ⟨a, -, ha⟩ := List.mem_map.mp this
  exact ha ▸ hser a

/-- C3 (amended): writing `k₁` records, closing, re-constructing the writer
on the same directory with the same `max_shard_size` and writing at least
one more record produces the same shard files and contents as one
continuous session.  (With zero records in the second session the claim
fails: re-construction over a full final shard eagerly creates one extra
empty shard file — see the counterexample.) -/
theorem C3_resume_amended (ser : α → List Char) (m : Nat)
    (items1 items2 : List α) (hm : 0 < m) (hser : ∀ a, wfRec (ser a))
    (h2 : items2 ≠ []) :
    resumeSession ser m items1 items2 = writeSession ser m (items1 ++ items2) := by
  have hsession1 : writeAll ser (initShard m []) items1 =
      writerOf m (chunkAcc m [] [] (items1.map ser)).1
        (chunkAcc m [] [] (items1.map ser)).2 := by
    rw [initShard_nil, writeAll_writerOf]
  set F := (chunkAcc m [] [] (items1.map ser)).1 with hF
  set C := (chunkAcc m [] [] (items1.map ser)).2 with hC
  have hwfC : ∀ r ∈ C, wfRec r := chunk_cur_wf ser m items1 hm hser
  unfold resumeSession writeSession closeW
  rw [hsession1, writeAll_append, hsession1]
  rw [initShard_writerOf m F C hwfC]
  by_cases h : m ≤ C.length
  · rw [if_pos h]
    cases items2 with
    | nil => exact absurd rfl h2
    | cons a rest =>
      have hstep1 : writeAll ser (writerOf m (F ++ [C]) []) (a :: rest) =
          writeAll ser (writeLine ser (writerOf m (F ++ [C]) []) a) rest := rfl
      have hstep2 : writeAll ser (writerOf m F C) (a :: rest) =
          writeAll ser (writeLine ser (writerOf m F C) a) rest := rfl
      rw [hstep1, hstep2]
      rw [writeLine_writerOf, writeLine_writerOf]
      rw [if_neg (by simp; omega), if_pos h]
      rw [List.nil_append]
  · rw [if_neg h]

/-- C3 counterexample: with `max_shard_size = 1`, writing one record,
closing, and re-opening the directory without writing anything leaves an
extra empty shard file (`shard_00001.jsonl`) that the continuous
one-session run does not produce. -/
def serA : Unit → List Char := fun _ => ['a']

theorem C3_counterexample :
    resumeSession serA 1 [()] [] ≠ writeSession serA 1 ([()] ++ []) ∧
    resumeSession serA 1 [()] [] = [['a'], []] ∧
    writeSession serA 1 ([()] ++ []) = [['a']] := by
  decide

/-- C4 (amended): when serialization fails, the exception propagates
(`Except.error`) and the sample count is never incremented, but the write
is not byte-atomic.  Part 1 (no rotation pending, `numSamples <
maxShardSize`): the count is unchanged, and exactly when the current shard
already holds at least one record the `"\n"` separator has already been
appended to the file when the failure occurs (only an empty shard leaves
the bytes unchanged).  Part 2 (rotation pending, i.e. a canonical state
whose current shard is full): by the time serialization fails the rotation
has already happened — the shard index has advanced, the count has been
reset to 0, and a new empty shard file has been created on disk (no
separator is written in this case, since the count was just reset). -/
theorem C4_serialization_failure (ser : α → Option (List Char))
    (st : WriterState) (a : α) (hfail : ser a = none) :
    (st.numSamples < st.maxShardSize →
      writeLineE ser st a =
        Except.error (if 0 < st.numSamples then appendToCurrent st ['\n'] else st) ∧
      (if 0 < st.numSamples then appendToCurrent st ['\n'] else st).numSamples =
        st.numSamples) ∧
    (∀ (m : Nat) (full : List (List (List Char))) (cur : List (List Char)),
      st = writerOf m full cur → m ≤ cur.length →
      writeLineE ser st a =
        Except.error ⟨m, full.length + 1, 0, (writerOf m full cur).dir ++ [[]]⟩) := by
  constructor
  · intro hlt
    have hrot : rotateShardIfNeeded st = st := by
      unfold rotateShardIfNeeded
      rw [if_neg (by omega)]
    constructor
    · simp only [writeLineE, hrot, hfail]
    · by_cases h : 0 < st.numSamples
      · simp only [h, if_true, appendToCurrent]
      · simp only [h, if_false]
  · intro m full cur hst hfull
    subst hst
    simp only [writeLineE]
    rw [rotate_writerOf_full m full cur hfull]
    rw [show (⟨m, full.length + 1, 0, (full.map joinNL ++ [joinNL cur]) ++ [[]]⟩ :
          WriterState).numSamples = 0 from rfl]
    rw [if_neg (Nat.lt_irrefl 0)]
    rw [hfail]
    rfl

theorem C4_witness :
    ((fun _ : Unit => (none : Option (List Char))) () = none ∧
      (⟨2, 0, 1, [['a']]⟩ : WriterState).numSamples <
        (⟨2, 0, 1, [['a']]⟩ : WriterState).maxShardSize ∧
      writerOf 1 [] [['b']] = writerOf 1 [] [['b']] ∧
      1 ≤ ([['b']] : List (List Char)).length) ∧
    (writeLineE (fun _ : Unit => none) ⟨2, 0, 1, [['a']]⟩ () =
      Except.error (if 0 < (⟨2, 0, 1, [['a']]⟩ : WriterState).numSamples
        then appendToCurrent ⟨2, 0, 1, [['a']]⟩ ['\n'] else ⟨2, 0, 1, [['a']]⟩) ∧
    (if 0 < (⟨2, 0, 1, [['a']]⟩ : WriterState).numSamples
        then appendToCurrent ⟨2, 0, 1, [['a']]⟩ ['\n'] else ⟨2, 0, 1, [['a']]⟩).numSamples =
      (⟨2, 0, 1, [['a']]⟩ : WriterState).numSamples) ∧
    writeLineE (fun _ : Unit => none) (writerOf 1 [] [['b']]) () =
      Except.error ⟨1, 1, 0, (writerOf 1 [] [['b']]).dir ++ [[]]⟩ :=
  ⟨⟨rfl, by decide, rfl, by decide⟩,
    (C4_serialization_failure (fun _ : Unit => none) ⟨2, 0, 1, [['a']]⟩ () rfl).1
      (by decide),
    (C4_serialization_failure (fun _ : Unit => none) (writerOf 1 [] [['b']]) () rfl).2
      1 [] [['b']] rfl (by decide)⟩

/-- C4 counterexample: a writer holding one record (`"a"`, count 1, limit
2) given an unserializable item propagates the failure, but the shard file
bytes have changed: the separator newline is already in the file
(`"a\n"`), contradicting "leaves the bytes of the current shard file
unchanged". -/
theorem C4_counterexample :
    writeLineE (fun _ : Unit => none) ⟨2, 0, 1, [['a']]⟩ () =
      Except.error ⟨2, 0, 1, [['a', '\n']]⟩ ∧
    (⟨2, 0, 1, [['a', '\n']]⟩ : WriterState).dir ≠
      (⟨2, 0, 1, [['a']]⟩ : WriterState).dir :=
  ⟨rfl, by decide⟩

/-- C6 (amended): rotation inside `write_line` opens new shards lazily, but
construction eagerly opens the current shard file in append mode.  On any
writer-produced directory this creates at most one new file, which is empty
and one past the previously last shard, and it does so exactly when the
last shard was full; on a fresh (empty) directory it creates the empty
`shard_00000`. -/
theorem C6_eager_empty_shard (m : Nat) (full : List (List (List Char)))
    (cur : List (List Char)) (hcur : ∀ r ∈ cur, wfRec r) :
    ((closeW (initShard m (writerOf m full cur).dir)).dir = (writerOf m full cur).dir ∨
      (closeW (initShard m (writerOf m full cur).dir)).dir =
        (writerOf m full cur).dir ++ [[]]) ∧
    ((closeW (initShard m (writerOf m full cur).dir)).dir =
        (writerOf m full cur).dir ++ [[]] ↔ m ≤ cur.length) ∧
    (closeW (initShard m [])).dir = [([] : List Char)] := by
  rw [show closeW (initShard m (writerOf m full cur).dir) =
        initShard m (writerOf m full cur).dir from rfl]
  rw [initShard_writerOf m full cur hcur]
  have hdir : (writerOf m full cur).dir = full.map joinNL ++ [joinNL cur] := rfl
  have hdir2 : (writerOf m (full ++ [cur]) []).dir =
      (writerOf m full cur).dir ++ [[]] := by
    rw [hdir]
    rw [show (writerOf m (full ++ [cur]) []).dir =
          (full ++ [cur]).map joinNL ++ [joinNL []] from rfl]
    simp [joinNL]
  by_cases h : m ≤ cur.length
  · rw [if_pos h]
    refine ⟨Or.inr hdir2, ⟨fun _ => h, fun _ => hdir2⟩, rfl⟩
  · rw [if_neg h]
    refine ⟨Or.inl rfl, ⟨?_, fun hc => absurd hc h⟩, rfl⟩
    intro hc
    exfalso
    have := congrArg List.length hc
    simp at this

/-! ### Arbitrary writer operation sequences (for the writer invariants) -/

/-- The operations a caller can perform against a directory: a (successful)
`write_line`, `flush`, `close`, and re-construction of a
`JsonlDatasetWriter` over the same directory with the same
`max_shard_size`. -/
inductive WOp (α : Type u)
  | write (a : α)
  | wflush
  | wclose
  | reopen

def stepW (ser : α → List Char) (st : WriterState) : WOp α → WriterState
  | WOp.write a => writeLine ser st a
  | WOp.wflush => st
  | WOp.wclose => closeW st
  | WOp.reopen => initShard st.maxShardSize (closeW st).dir

/-- Run a sequence of operations starting from a fresh writer on an empty
directory. -/
def runW (ser : α → List Char) (m : Nat) (ops : List (WOp α)) : WriterState :=
  ops.foldl (stepW ser) (initShard m [])

/-- Reachable writer states: canonical shape with all recorded shards
holding at most `m` well-formed records. -/
def WInv (m : Nat) (st : WriterState) : Prop :=
  ∃ full cur, st = writerOf m full cur ∧ cur.length ≤ m ∧
    (∀ x ∈ full, x.length ≤ m ∧ ∀ r ∈ x, wfRec r) ∧ (∀ r ∈ cur, wfRec r)

theorem WInv_step (ser : α → List Char) (m : Nat) (hm : 0 < m)
    (hser : ∀ a, wfRec (ser a)) (st : WriterState) (op : WOp α)
    (h : WInv m st) : WInv m (stepW ser st op) := by
  obtain ⟨full, cur, hst, hcur, hfull, hwf⟩ := h
  subst hst
  cases op with
  | write a =>
    show WInv m (writeLine ser (writerOf m full cur) a)
    rw [writeLine_writerOf]
    by_cases hc : m ≤ cur.length
    · rw [if_pos hc]
      refine ⟨full ++ [cur], [ser a], rfl, by simpa using hm, ?_, ?_⟩
      · intro x hx
        rcases List.mem_append.mp hx with hx | hx
        · exact hfull x hx
        · rw [List.mem_singleton.mp hx]
          exact ⟨hcur, hwf⟩
      · intro r hr
        rw [List.mem_singleton.mp hr]
        exact hser a
    · rw [if_neg hc]
      refine ⟨full, cur ++ [ser a], rfl, ?_, hfull, ?_⟩
      · simp only [List.length_append, List.length_singleton]
        omega
      · intro r hr
        rcases List.mem_append.mp hr with hr | hr
        · exact hwf r hr
        · rw [List.mem_singleton.mp hr]
          exact hser a
  | wflush => exact ⟨full, cur, rfl, hcur, hfull, hwf⟩
  | wclose => exact ⟨full, cur, rfl, hcur, hfull, hwf⟩
  | reopen =>
    show WInv m (initShard (writerOf m full cur).maxShardSize (writerOf m full cur).dir)
    rw [show (writerOf m full cur).maxShardSize = m from rfl]
    rw [initShard_writerOf m full cur hwf]
    by_cases hc : m ≤ cur.length
    · rw [if_pos hc]
      refine ⟨full ++ [cur], [], rfl, by simp, ?_, by simp⟩
      intro x hx
      rcases List.mem_append.mp hx with hx | hx
      · exact hfull x hx
      · rw [List.mem_singleton.mp hx]
        exact ⟨hcur, hwf⟩
    · rw [if_neg hc]
      exact ⟨full, cur, rfl, hcur, hfull, hwf⟩

theorem WInv_runW (ser : α → List Char) (m : Nat) (hm : 0 < m)
    (hser : ∀ a, wfRec (ser a)) (ops : List (WOp α)) :
    WInv m (runW ser m ops) := by
  unfold runW
  have hinit : WInv m (initShard m []) := by
    rw [initShard_nil]
    exact ⟨[], [], rfl, by simp, by simp, by simp⟩
  generalize initShard m [] = st at hinit ⊢
  induction ops generalizing st with
  | nil => exact hinit
  | cons op rest ih =>
    exact ih (stepW ser st op) (WInv_step ser m hm hser st op hinit)

/-- C5: under every sequence of (successful) `write_line`, `flush`, `close`
and re-construction operations with a fixed `max_shard_size = m ≥ 1`,
every shard file ever on disk holds at most `m` records and has no leading
or trailing blank line. -/
theorem C5_shard_invariants (ser : α → List Char) (m : Nat)
    (ops : List (WOp α)) (hm : 0 < m) (hser : ∀ a, wfRec (ser a)) :
    ∀ s ∈ (runW ser m ops).dir, (fileRecords s).length ≤ m ∧ noEdgeBlank s := by
  obtain ⟨full, cur, hst, hcur, hfull, hwf⟩ := WInv_runW ser m hm hser ops
  rw [hst]
  intro s hs
  rw [show (writerOf m full cur).dir = full.map joinNL ++ [joinNL cur] from rfl] at hs
  rcases List.mem_append.mp hs with hs | hs
  · obtain ⟨x, hx, hxs⟩ := List.mem_map.mp hs
    obtain ⟨hxlen, hxwf⟩ := hfull x hx
    rw [← hxs, fileRecords_joinNL hxwf]
    exact ⟨hxlen, noEdgeBlank_joinNL hxwf⟩
  · rw [List.mem_singleton.mp hs, fileRecords_joinNL hwf]
    exact ⟨hcur, noEdgeBlank_joinNL hwf⟩

/-- Concrete serializer on `Fin 3` used by witnesses. -/
def serF3 : Fin 3 → List Char := fun i =>
  if i = 0 then ['a'] else if i = 1 then ['b'] else ['c']

theorem C2_witness :
    (0 < 2 ∧ ([0, 1, 2] : List (Fin 3)) ≠ [] ∧ ∀ a, wfRec (serF3 a)) ∧
    (writeSession serF3 2 [0, 1, 2]).length =
      (([0, 1, 2] : List (Fin 3)).length + 2 - 1) / 2 ∧
    (∀ s ∈ (writeSession serF3 2 [0, 1, 2]).dropLast, (fileRecords s).length = 2) ∧
    ((writeSession serF3 2 [0, 1, 2]).map fileRecords).flatten =
      ([0, 1, 2] : List (Fin 3)).map serF3 :=
  ⟨⟨by decide, by decide, by decide⟩,
    C2_writer_roundtrip serF3 2 [0, 1, 2] (by decide) (by decide) (by decide)⟩

theorem C3_witness :
    (0 < 2 ∧ (∀ a, wfRec (serF3 a)) ∧ ([2] : List (Fin 3)) ≠ []) ∧
    resumeSession serF3 2 [0, 1] [2] = writeSession serF3 2 ([0, 1] ++ [2]) :=
  ⟨⟨by decide, by decide, by decide⟩,
    C3_resume_amended serF3 2 [0, 1] [2] (by decide) (by decide) (by decide)⟩

theorem C5_witness :
    (0 < 1 ∧ ∀ a, wfRec (serF3 a)) ∧
    ∀ s ∈ (runW serF3 1
        [WOp.write 0, WOp.wflush, WOp.reopen, WOp.write 1, WOp.wclose,
          WOp.reopen, WOp.write 2]).dir,
      (fileRecords s).length ≤ 1 ∧ noEdgeBlank s :=
  ⟨⟨by decide, by decide⟩,
    C5_shard_invariants serF3 1 _ (by decide) (by decide)⟩

theorem C6_witness :
    (∀ r ∈ [['a']], wfRec r) ∧
    (((closeW (initShard 1 (writerOf 1 [] [['a']]).dir)).dir =
        (writerOf 1 [] [['a']]).dir ∨
      (closeW (initShard 1 (writerOf 1 [] [['a']]).dir)).dir =
        (writerOf 1 [] [['a']]).dir ++ [[]]) ∧
    ((closeW (initShard 1 (writerOf 1 [] [['a']]).dir)).dir =
        (writerOf 1 [] [['a']]).dir ++ [[]] ↔ 1 ≤ ([['a']] : List (List Char)).length) ∧
    (closeW (initShard 1 [])).dir = [([] : List Char)]) :=
  ⟨by decide, C6_eager_empty_shard 1 [] [['a']] (by decide)⟩

/-- C6 counterexample: constructing a writer and closing it without any
`write_line` call does leave a new empty shard file on disk — both on a
fresh directory (empty `shard_00000`) and when resuming over a full final
shard (empty `shard_00001`). -/
theorem C6_counterexample :
    (closeW (initShard 1 [])).dir = [[]] ∧ ([[]] : List (List Char)) ≠ [] ∧
    (closeW (initShard 1 [['a']])).dir = [['a'], []] := by
  decide

/-! ## The ordered readers (`readers.py`)

A shard file is abstracted to its list of lines (`iter_lines` yields the
decoded lines without trailing newlines); a directory is the sorted list of
its files' line lists.  The sequential strategy
(`itertools.chain.from_iterable`) concatenates them. -/

/-- `_line_stream` with `read_strategy="sequential"`. -/
def lineStreamSequential (ls : List (List α)) : List α := ls.flatten

theorem sum_tails_le (ls : List (List α)) :
    ((ls.map List.tail).map List.length).sum ≤ (ls.map List.length).sum := by
  induction ls with
  | nil => simp
  | cons a t ih =>
    simp only [List.map_cons, List.sum_cons]
    have : a.tail.length ≤ a.length := by
      rw [List.length_tail]; omega
    omega

theorem sum_tails_lt {ls : List (List α)} (h : ¬ ls.all List.isEmpty = true) :
    ((ls.map List.tail).map List.length).sum < (ls.map List.length).sum := by
  induction ls with
  | nil => simp at h
  | cons a t ih =>
    simp only [List.all_cons, Bool.and_eq_true] at h
    simp only [List.map_cons, List.sum_cons]
    by_cases ha : a.isEmpty = true
    · have ha0 : a = [] := by
        cases a
        · rfl
        · simp at ha
      have ht : ¬ t.all List.isEmpty = true := fun hc => h ⟨ha, hc⟩
      have := ih ht
      subst ha0
      simpa using this
    · have ha' : a ≠ [] := by
        cases a
        · simp at ha
        · simp
      have h1 : a.tail.length < a.length := by
        rw [List.length_tail]
        cases a
        · exact absurd rfl ha'
        · simp
      have := sum_tails_le t
      omega

set_option linter.unusedVariables false in
/-- `round_robin`: `itertools.zip_longest(*iterables, fillvalue=None)`
yields one group per round — the `head?` of every iterable, `none` once it
is exhausted — as long as any iterable has items; each group's non-`none`
items are yielded in file order. -/
def roundRobin (ls : List (List α)) : List α :=
  if hne : ls.all List.isEmpty then []
  else ((ls.map List.head?).filterMap id) ++ roundRobin (ls.map List.tail)
termination_by (ls.map List.length).sum
decreasing_by
  simp_wf
  rw [← List.map_map]
  exact sum_tails_lt hne

/-- Length of the longest input, i.e. the number of rounds. -/
def maxLen (ls : List (List α)) : Nat := (ls.map List.length).foldr max 0

/-- Modelled from the spec (§4.3): round `j` yields, in file order, line `j`
of every file that still has one; the output is the concatenation of the
rounds.  This is the spec-side characterization the implementation is
compared against. -/
def roundRobinSpec (ls : List (List α)) : List α :=
  ((List.range (maxLen ls)).map (fun j => ls.filterMap (fun l => l[j]?))).flatten

theorem maxLen_all_empty {ls : List (List α)} (h : ls.all List.isEmpty = true) :
    maxLen ls = 0 := by
  induction ls with
  | nil => rfl
  | cons a t ih =>
    simp only [List.all_cons, Bool.and_eq_true] at h
    have ha : a = [] := by
      cases a
      · rfl
      · simp at h
    unfold maxLen at ih ⊢
    simp only [List.map_cons, List.foldr_cons, ha, List.length_nil, ih h.2]
    simp

theorem maxLen_pos {ls : List (List α)} (h : ¬ ls.all List.isEmpty = true) :
    1 ≤ maxLen ls := by
  induction ls with
  | nil => simp at h
  | cons a t ih =>
    simp only [List.all_cons, Bool.and_eq_true] at h
    unfold maxLen at ih ⊢
    simp only [List.map_cons, List.foldr_cons]
    by_cases ha : a.isEmpty = true
    · have ht : ¬ t.all List.isEmpty = true := fun hc => h ⟨ha, hc⟩
      have := ih ht
      omega
    · have : 1 ≤ a.length := by
        cases a
        · simp at ha
        · simp
      omega

theorem maxLen_tails (ls : List (List α)) :
    maxLen (ls.map List.tail) = maxLen ls - 1 := by
  induction ls with
  | nil => rfl
  | cons a t ih =>
    unfold maxLen at ih ⊢
    simp only [List.map_cons, List.foldr_cons, List.length_tail, ih]
    omega

theorem getElemQ_succ_tail (l : List α) (j : Nat) : l[j + 1]? = l.tail[j]? := by
  cases l with
  | nil => rfl
  | cons a t => simp

/-- C7: the round-robin strategy is exactly the spec's round rule — line
`j` of file `i` is emitted in round `j`, after the round-`j` lines of files
before `i` and before those of files after `i`, exhausted files skipped —
and the spec's worked example holds: files `[{"a":1},{"a":2}]` and
`[{"b":3},{"b":4}]` interleave to `[{"a":1},{"b":3},{"a":2},{"b":4}]`. -/
theorem C7_round_robin :
    (∀ (α : Type) (ls : List (List α)), roundRobin ls = roundRobinSpec ls) ∧
    roundRobin [["\x7b\"a\":1\x7d", "\x7b\"a\":2\x7d"], ["\x7b\"b\":3\x7d", "\x7b\"b\":4\x7d"]] =
      ["\x7b\"a\":1\x7d", "\x7b\"b\":3\x7d", "\x7b\"a\":2\x7d", "\x7b\"b\":4\x7d"] := by
  have main : ∀ (α : Type) (n : Nat) (ls : List (List α)),
      (ls.map List.length).sum ≤ n → roundRobin ls = roundRobinSpec ls := by
    intro α n
    induction n with
    | zero =>
      intro ls hsum
      have hall : ls.all List.isEmpty = true := by
        rw [List.all_eq_true]
        intro x hx
        have : x.length ≤ (ls.map List.length).sum := by
          exact List.le_sum_of_mem (List.mem_map_of_mem List.length hx)
        have hx0 : x.length = 0 := by omega
        cases x
        · rfl
        · simp at hx0
      rw [roundRobin, dif_pos hall]
      unfold roundRobinSpec
      rw [maxLen_all_empty hall]
      rfl
    | succ n ih =>
      intro ls hsum
      by_cases hall : ls.all List.isEmpty = true
      · rw [roundRobin, dif_pos hall]
        unfold roundRobinSpec
        rw [maxLen_all_empty hall]
        rfl
      · rw [roundRobin, dif_neg hall]
        have htails : ((ls.map List.tail).map List.length).sum ≤ n := by
          have := sum_tails_lt hall
          omega
        rw [ih (ls.map List.tail) htails]
        unfold roundRobinSpec
        have hmax : maxLen ls = maxLen (ls.map List.tail) + 1 := by
          rw [maxLen_tails]
          have := maxLen_pos hall
          omega
        rw [hmax, List.range_succ_eq_map]
        simp only [List.map_cons, List.flatten_cons, List.map_map]
        congr 1
        · -- round 0 is the heads
          rw [List.filterMap_map]
          apply List.filterMap_congr
          intro l hl
          cases l <;> simp
        · -- later rounds over `ls` are earlier rounds over the tails
          congr 1
          apply List.map_congr_left
          intro j hj
          simp only [Function.comp_apply]
          rw [List.filterMap_map]
          apply List.filterMap_congr
          intro l hl
          simp only [Function.comp_apply]
          exact (getElemQ_succ_tail l j).symm
  refine ⟨fun α ls => main α ((ls.map List.length).sum) ls (Nat.le_refl _), ?_⟩
  rw [main String ((([["\x7b\"a\":1\x7d", "\x7b\"a\":2\x7d"],
        ["\x7b\"b\":3\x7d", "\x7b\"b\":4\x7d"]]).map List.length).sum) _ (Nat.le_refl _)]
  decide

/-! ## `JsonlDatasetReader.stream` (`readers.py`)

`stream` builds the strategy's line stream, applies
`itertools.islice(lines, limit)` to the **lines** when a limit is given,
then decodes each line with `orjson.loads`, raising on a malformed line
unless `skip_on_error` is set.  The decoder is abstracted to
`dec : α → Option β` (`none` = `JSONDecodeError`).  The result is the pair
(emitted records, the malformed line the generator raised on, if any). -/

def decodeStream (dec : α → Option β) (skip : Bool) : List α → List β × Option α
  | [] => ([], none)
  | l :: ls =>
    match dec l with
    | some r => ((decodeStream dec skip ls).1.cons r, (decodeStream dec skip ls).2)
    | none => if skip then decodeStream dec skip ls else ([], some l)

def streamR (dec : α → Option β) (skip : Bool) (limit : Option Nat) (lines : List α) :
    List β × Option α :=
  decodeStream dec skip
    (match limit with
     | some n => lines.take n
     | none => lines)

theorem decodeStream_cons (dec : α → Option β) (skip : Bool) (l : α) (ls : List α) :
    decodeStream dec skip (l :: ls) =
      match dec l with
      | some r => ((decodeStream dec skip ls).1.cons r, (decodeStream dec skip ls).2)
      | none => if skip then decodeStream dec skip ls else ([], some l) := rfl

theorem decodeStream_take (dec : α → Option β) (skip : Bool) :
    ∀ (lines : List α) (n : Nat), (∀ l ∈ lines.take n, (dec l).isSome) →
      decodeStream dec skip (lines.take n) =
        ((decodeStream dec skip lines).1.take n, none) := by
  intro lines
  induction lines with
  | nil =>
    intro n h
    simp [decodeStream]
  | cons l ls ih =>
    intro n h
    cases n with
    | zero => simp [decodeStream]
    | succ n =>
      rw [List.take_succ_cons] at h ⊢
      have hl : (dec l).isSome := h l (List.mem_cons_self l _)
      obtain ⟨r, hr⟩ := Option.isSome_iff_exists.mp hl
      rw [decodeStream_cons, decodeStream_cons, hr]
      simp only
      rw [ih n (fun x hx => h x (List.mem_cons_of_mem l hx))]
      simp [List.take_succ_cons]

/-- C8 (amended): `stream(limit=n)` slices the **line** stream, not the
emitted records: it decodes exactly the first `n` lines.  Whenever those
`n` lines are all well-formed — in particular always when no malformed
line occurs among them, for either value of `skip_on_error` — this equals
the first `n` records of the unlimited stream, with no error raised.  When
`skip_on_error=true` and a malformed line lies among the first `n`,
however, the dropped line still counts against the limit and fewer than
`n` records are emitted (see the counterexample). -/
theorem C8_limit_amended (dec : α → Option β) (skip : Bool) (n : Nat)
    (lines : List α) (h : ∀ l ∈ lines.take n, (dec l).isSome) :
    streamR dec skip (some n) lines =
      ((streamR dec skip none lines).1.take n, none) := by
  unfold streamR
  exact decodeStream_take dec skip lines n h

def decPos : Nat → Option Nat := fun k => if k = 0 then none else some k

theorem C8_witness :
    (∀ l ∈ ([1, 2, 3] : List Nat).take 2, (decPos l).isSome) ∧
    streamR decPos false (some 2) [1, 2, 3] =
      ((streamR decPos false none [1, 2, 3]).1.take 2, none) :=
  ⟨by decide, C8_limit_amended decPos false 2 [1, 2, 3] (by decide)⟩

/-- C8 counterexample: with `skip_on_error=true`, a source whose first line
is malformed (`0`, with `decPos 0 = none`) and whose second line is valid:
`stream(limit=1)` consumes only the malformed first line and emits **no**
record, while the first 1 records of the unlimited stream are `[1]`.  The
limit counts consumed lines, not emitted records. -/
theorem C8_counterexample :
    (streamR decPos true (some 1) [0, 1]).1 = [] ∧
    (streamR decPos true none [0, 1]).1.take 1 = [1] ∧
    (streamR decPos true (some 1) [0, 1]).1 ≠
      (streamR decPos true none [0, 1]).1.take 1 := by
  decide

/-! ## The parallel reader (`io.py`, `ParallelLineIterator`)

The thread system of `ParallelLineIterator.__iter__` is modelled as a small
step transition system driven by an explicit schedule (interleaving):

* One `Job` per input file (`line_feeder`): its remaining lines `rem`, the
  error its source will raise after its lines (`err`, kept `none` for a
  well-formed file), and whether it has already pushed its completion
  marker (`sent`).  Each `work i` step performs the job's next single queue
  operation, exactly as in the `try/except/finally` body: push the next
  line (unless the stop event is set, in which case the feeder returns and
  discards its input); once exhausted, push the pending error into the
  error queue; then push the sentinel (the `finally` block, reached on
  success, error and cancellation alike).
* The consumer loop is split at its blocking point: `check` performs the
  loop head — exit with `Except.ok` when `done_files = num_files`,
  otherwise re-raise the first queued error if one is visible, otherwise
  proceed to a blocking read (`reading := true`); `read` performs
  `q.get(timeout=0.1)` — pop one item (a timeout on an empty queue just
  returns to the loop head).  Worker steps can interleave between a
  `check` and its `read`, as the real threads can.
* `close` sets the cooperative stop event and nothing else, as in the
  source.  Queue capacity is not modelled (puts never block); this does
  not affect the properties proved here.
* Once the consumer generator has terminated (`res` is set) the system is
  frozen: later worker activity cannot change the observable outcome.

This system is the semantics of `ParallelLineIterator.__iter__` itself,
which `multiple_files_lines_iterator` (io.py) drives via `try/finally`.
The reader's `_line_stream` parallel branch, by contrast, wraps the
iterator in a `with` statement although the class defines no
`__enter__`/`__exit__`, so it raises before this system ever starts —
that entry failure is modelled separately (`lineStreamParallel`, claim
C1). -/

inductive QItem (α : Type)
  | line (a : α)
  | sentinel
deriving DecidableEq

structure Job (α ε : Type) where
  rem : List α
  err : Option ε
  sent : Bool
deriving DecidableEq

instance {ε σ : Type} [DecidableEq ε] [DecidableEq σ] : DecidableEq (Except ε σ)
  | Except.error a, Except.error b => decidable_of_iff (a = b) (by simp)
  | Except.error _, Except.ok _ => isFalse (by simp)
  | Except.ok _, Except.error _ => isFalse (by simp)
  | Except.ok a, Except.ok b => decidable_of_iff (a = b) (by simp)

structure PSys (α ε : Type) where
  jobs : List (Job α ε)
  numFiles : Nat
  q : List (QItem α)
  errq : List ε
  done : Nat
  out : List α
  stop : Bool
  reading : Bool
  res : Option (Except ε Unit)
deriving DecidableEq

inductive PAct
  | work (i : Nat)
  | check
  | read
  | close
deriving DecidableEq

def isSentinel : QItem α → Bool
  | QItem.sentinel => true
  | QItem.line _ => false

/-- Number of completion markers currently in the queue. -/
def sentCount (q : List (QItem α)) : Nat := q.countP isSentinel

/-- Number of jobs that have not yet pushed their completion marker. -/
def unsentCount (jobs : List (Job α ε)) : Nat := jobs.countP (fun j => !j.sent)

def qLine : QItem α → Option α
  | QItem.line a => some a
  | QItem.sentinel => none

/-- The data lines currently in the queue, in queue (FIFO) order. -/
def qLines (q : List (QItem α)) : List α := q.filterMap qLine

def workStep (s : PSys α ε) (i : Nat) : PSys α ε :=
  if s.res.isSome then s else
  match s.jobs[i]? with
  | none => s
  | some j =>
    if j.sent then s
    else
      match j.rem with
      | l :: ls =>
        if s.stop then { s with jobs := s.jobs.set i ⟨[], none, false⟩ }
        else { s with jobs := s.jobs.set i ⟨ls, j.err, false⟩, q := s.q ++ [QItem.line l] }
      | [] =>
        match j.err with
        | some e => { s with jobs := s.jobs.set i ⟨[], none, false⟩, errq := s.errq ++ [e] }
        | none => { s with jobs := s.jobs.set i ⟨[], none, true⟩, q := s.q ++ [QItem.sentinel] }

def checkStep (s : PSys α ε) : PSys α ε :=
  if s.res.isSome then s else
  if s.reading then s else
  if s.numFiles ≤ s.done then { s with res := some (Except.ok ()) }
  else
    match s.errq with
    | e :: _ => { s with res := some (Except.error e) }
    | [] => { s with reading := true }

def readStep (s : PSys α ε) : PSys α ε :=
  if s.res.isSome then s else
  if s.reading = false then s else
  match s.q with
  | [] => { s with reading := false }
  | QItem.sentinel :: rest => { s with q := rest, done := s.done + 1, reading := false }
  | QItem.line a :: rest => { s with q := rest, out := s.out ++ [a], reading := false }

def closeStep (s : PSys α ε) : PSys α ε := { s with stop := true }

def stepP (s : PSys α ε) : PAct → PSys α ε
  | PAct.work i => workStep s i
  | PAct.check => checkStep s
  | PAct.read => readStep s
  | PAct.close => closeStep s

def runP (s : PSys α ε) (acts : List PAct) : PSys α ε := acts.foldl stepP s

/-- The system as set up by `__iter__`: one job per file (a file is its
line list plus the error its source raises at the end, if any), empty
queues, nothing consumed. -/
def initP (files : List (List α × Option ε)) : PSys α ε :=
  { jobs := files.map (fun f => ⟨f.1, f.2, false⟩), numFiles := files.length,
    q := [], errq := [], done := 0, out := [], stop := false, reading := false,
    res := none }

/-! ### List index/count helpers -/

theorem countP_set_balance (p : γ → Bool) :
    ∀ (l : List γ) (i : Nat) (x y : γ), l[i]? = some x →
      (l.set i y).countP p + (if p x then 1 else 0) =
        l.countP p + (if p y then 1 else 0) := by
  intro l
  induction l with
  | nil => intro i x y h; simp at h
  | cons a t ih =>
    intro i x y h
    cases i with
    | zero =>
      simp only [List.getElem?_cons_zero, Option.some.injEq] at h
      subst h
      simp only [List.set_cons_zero, List.countP_cons]
      omega
    | succ i =>
      simp only [List.getElem?_cons_succ] at h
      simp only [List.set_cons_succ, List.countP_cons]
      have := ih i x y h
      omega

theorem getElemQ_set_self (l : List γ) (i : Nat) (y : γ) (h : i < l.length) :
    (l.set i y)[i]? = some y := by
  induction l generalizing i with
  | nil => simp at h
  | cons a t ih =>
    cases i with
    | zero => simp
    | succ i =>
      simp only [List.set_cons_succ, List.getElem?_cons_succ]
      exact ih i (by simpa using h)

theorem getElemQ_set_ne (l : List γ) (i k : Nat) (y : γ) (h : i ≠ k) :
    (l.set i y)[k]? = l[k]? := by
  induction l generalizing i k with
  | nil => simp
  | cons a t ih =>
    cases i with
    | zero =>
      cases k with
      | zero => exact absurd rfl h
      | succ k => simp
    | succ i =>
      cases k with
      | zero => simp
      | succ k =>
        simp only [List.set_cons_succ, List.getElem?_cons_succ]
        exact ih i k (fun hc => h (by rw [hc]))

theorem suffix_concat_cases {t l : List γ} {x : γ} (h : t <:+ l ++ [x]) :
    t = [] ∨ ∃ u, u <:+ l ∧ t = u ++ [x] := by
  rcases List.eq_nil_or_concat t with ht | ⟨u, y, hu⟩
  · exact Or.inl ht
  · right
    rw [List.concat_eq_append] at hu
    subst hu
    obtain ⟨pre, hpre⟩ := h
    rw [← List.append_assoc] at hpre
    obtain ⟨h1, h2⟩ := List.append_inj' hpre (by simp)
    have hy : y = x := by simpa using h2
    subst hy
    exact ⟨u, ⟨pre, h1⟩, rfl⟩

theorem suffix_cons {y : γ} {rest : List γ} {t : List γ} (h : t <:+ rest) :
    t <:+ y :: rest := by
  obtain ⟨pre, hpre⟩ := h
  exact ⟨y :: pre, by simp [hpre]⟩

/-! ### The accounting invariant (holds for every schedule) -/

/-- Bookkeeping invariant of the parallel system: `done_files` plus the
markers still queued plus the jobs that have not yet pushed their marker
is the number of files — every job pushes exactly one completion marker,
also on error and on cancellation; the error queue only holds errors the
sources actually raised; an error result carries the first queued error;
an ok result means all markers were consumed. -/
def Inv9 (N : Nat) (E : List ε) (s : PSys α ε) : Prop :=
  s.numFiles = N ∧ s.jobs.length = N ∧
  s.done + sentCount s.q + unsentCount s.jobs = N ∧
  (∀ e ∈ s.errq, e ∈ E) ∧
  (∀ j ∈ s.jobs, ∀ e, j.err = some e → e ∈ E) ∧
  (∀ e, s.res = some (Except.error e) → s.errq.head? = some e) ∧
  (s.res = some (Except.ok ()) → N ≤ s.done)


theorem mem_of_getElemQ {l : List γ} {i : Nat} {a : γ} (h : l[i]? = some a) :
    a ∈ l := by
  induction l generalizing i with
  | nil => simp at h
  | cons x t ih =>
    cases i with
    | zero =>
      simp only [List.getElem?_cons_zero, Option.some.injEq] at h
      exact h ▸ List.mem_cons_self x t
    | succ i =>
      simp only [List.getElem?_cons_succ] at h
      exact List.mem_cons_of_mem x (ih h)

theorem inv9_step (N : Nat) (E : List ε) (s : PSys α ε) (a : PAct)
    (h : Inv9 N E s) : Inv9 N E (stepP s a) := by
  obtain ⟨h1, h2, h3, h4, h5, h6, h7⟩ := h
  cases a with
  | work i =>
    show Inv9 N E (workStep s i)
    unfold workStep
    by_cases hres : s.res.isSome
    · rw [if_pos hres]; exact ⟨h1, h2, h3, h4, h5, h6, h7⟩
    · rw [if_neg hres]
      have hres0 : s.res = none := Option.not_isSome_iff_eq_none.mp hres
      cases hj : s.jobs[i]? with
      | none => exact ⟨h1, h2, h3, h4, h5, h6, h7⟩
      | some j =>
        dsimp only
        by_cases hs : j.sent
        · rw [if_pos hs]; exact ⟨h1, h2, h3, h4, h5, h6, h7⟩
        · rw [if_neg hs]
          have hsf : j.sent = false := by
            cases hjs : j.sent
            · rfl
            · exact absurd hjs hs
          have hjmem : j ∈ s.jobs := mem_of_getElemQ hj
          cases hrem : j.rem with
          | cons l ls =>
            dsimp only
            by_cases hst : s.stop
            · rw [if_pos hst]
              refine ⟨h1, by simpa using h2, ?_, h4, ?_, by simp [hres0],
                by simp [hres0]⟩
              · show s.done + sentCount s.q +
                  unsentCount (s.jobs.set i ⟨[], none, false⟩) = N
                unfold unsentCount at h3 ⊢
                have hb := countP_set_balance (fun j => !j.sent) s.jobs i j
                  ⟨[], none, false⟩ hj
                simp [hsf] at hb
                omega
              · intro jx hjx e he
                rcases List.mem_or_eq_of_mem_set hjx with hmem | heq
                · exact h5 jx hmem e he
                · rw [heq] at he
                  exact Option.noConfusion he
            · rw [if_neg hst]
              refine ⟨h1, by simpa using h2, ?_, h4, ?_, by simp [hres0],
                by simp [hres0]⟩
              · show s.done + sentCount (s.q ++ [QItem.line l]) +
                  unsentCount (s.jobs.set i ⟨ls, j.err, false⟩) = N
                unfold unsentCount sentCount at h3 ⊢
                have hb := countP_set_balance (fun j => !j.sent) s.jobs i j
                  ⟨ls, j.err, false⟩ hj
                simp [hsf] at hb
                rw [List.countP_append]
                simp [isSentinel]
                omega
              · intro jx hjx e he
                rcases List.mem_or_eq_of_mem_set hjx with hmem | heq
                · exact h5 jx hmem e he
                · rw [heq] at he
                  exact h5 j hjmem e (by rw [← he])
          | nil =>
            dsimp only
            cases herr : j.err with
            | some e =>
              dsimp only
              refine ⟨h1, by simpa using h2, ?_, ?_, ?_, by simp [hres0],
                by simp [hres0]⟩
              · show s.done + sentCount s.q +
                  unsentCount (s.jobs.set i ⟨[], none, false⟩) = N
                unfold unsentCount at h3 ⊢
                have hb := countP_set_balance (fun j => !j.sent) s.jobs i j
                  ⟨[], none, false⟩ hj
                simp [hsf] at hb
                omega
              · intro ex hex
                rcases List.mem_append.mp hex with hmem | hsing
                · exact h4 ex hmem
                · rw [List.mem_singleton.mp hsing]
                  exact h5 j hjmem e herr
              · intro jx hjx ex hex
                rcases List.mem_or_eq_of_mem_set hjx with hmem | heq
                · exact h5 jx hmem ex hex
                · rw [heq] at hex
                  exact Option.noConfusion hex
            | none =>
              dsimp only
              refine ⟨h1, by simpa using h2, ?_, h4, ?_, by simp [hres0],
                by simp [hres0]⟩
              · show s.done + sentCount (s.q ++ [QItem.sentinel]) +
                  unsentCount (s.jobs.set i ⟨[], none, true⟩) = N
                unfold unsentCount sentCount at h3 ⊢
                have hb := countP_set_balance (fun j => !j.sent) s.jobs i j
                  ⟨[], none, true⟩ hj
                simp [hsf] at hb
                rw [List.countP_append]
                simp [isSentinel]
                omega
              · intro jx hjx ex hex
                rcases List.mem_or_eq_of_mem_set hjx with hmem | heq
                · exact h5 jx hmem ex hex
                · rw [heq] at hex
                  exact Option.noConfusion hex
  | check =>
    show Inv9 N E (checkStep s)
    unfold checkStep
    by_cases hres : s.res.isSome
    · rw [if_pos hres]; exact ⟨h1, h2, h3, h4, h5, h6, h7⟩
    · rw [if_neg hres]
      by_cases hrd : s.reading
      · rw [if_pos hrd]; exact ⟨h1, h2, h3, h4, h5, h6, h7⟩
      · rw [if_neg hrd]
        by_cases hdone : s.numFiles ≤ s.done
        · rw [if_pos hdone]
          refine ⟨h1, h2, h3, h4, h5, ?_, ?_⟩
          · intro e he
            simp only [Option.some.injEq] at he
            exact absurd he (by simp)
          · intro _
            rw [← h1]
            exact hdone
        · rw [if_neg hdone]
          cases herrq : s.errq with
          | cons e0 rest =>
            dsimp only
            refine ⟨h1, h2, h3, ?_, h5, ?_, ?_⟩
            · rw [← herrq]
              exact h4
            · intro e he
              simp only [Option.some.injEq, Except.error.injEq] at he
              simp [← he]
            · intro hok
              simp only [Option.some.injEq] at hok
              exact absurd hok (by simp)
          | nil =>
            dsimp only
            exact ⟨h1, h2, h3, by rw [← herrq]; exact h4, h5,
              by simp [Option.not_isSome_iff_eq_none.mp hres],
              by simp [Option.not_isSome_iff_eq_none.mp hres]⟩
  | read =>
    show Inv9 N E (readStep s)
    unfold readStep
    by_cases hres : s.res.isSome
    · rw [if_pos hres]; exact ⟨h1, h2, h3, h4, h5, h6, h7⟩
    · rw [if_neg hres]
      have hres0 : s.res = none := Option.not_isSome_iff_eq_none.mp hres
      by_cases hrd : s.reading = false
      · rw [if_pos hrd]; exact ⟨h1, h2, h3, h4, h5, h6, h7⟩
      · rw [if_neg hrd]
        cases hq : s.q with
        | nil =>
          dsimp only
          exact ⟨h1, h2, by rw [← hq]; exact h3, h4, h5, by simp [hres0],
            by simp [hres0]⟩
        | cons item rest =>
          cases item with
          | sentinel =>
            dsimp only
            refine ⟨h1, h2, ?_, h4, h5, by simp [hres0], by simp [hres0]⟩
            show s.done + 1 + sentCount rest + unsentCount s.jobs = N
            unfold sentCount at h3 ⊢
            rw [hq] at h3
            simp [isSentinel, List.countP_cons] at h3
            omega
          | line a =>
            dsimp only
            refine ⟨h1, h2, ?_, h4, h5, by simp [hres0], by simp [hres0]⟩
            show s.done + sentCount rest + unsentCount s.jobs = N
            unfold sentCount at h3 ⊢
            rw [hq] at h3
            simp [isSentinel, List.countP_cons] at h3
            omega
  | close =>
    exact ⟨h1, h2, h3, h4, h5, h6, h7⟩

theorem inv9_init (files : List (List α × Option ε)) :
    Inv9 files.length (files.filterMap Prod.snd) (initP files) := by
  refine ⟨rfl, by simp [initP], ?_, by simp [initP], ?_, by simp [initP], by simp [initP]⟩
  · show 0 + sentCount ([] : List (QItem α)) +
      unsentCount (files.map (fun f => ⟨f.1, f.2, false⟩)) = files.length
    unfold sentCount unsentCount
    simp only [List.countP_nil, Nat.add_zero, Nat.zero_add]
    rw [List.countP_eq_length.mpr]
    · simp
    · intro j hj
      obtain ⟨f, -, hf⟩ := List.mem_map.mp hj
      rw [← hf]
      rfl
  · intro j hj e he
    obtain ⟨f, hfmem, hf⟩ := List.mem_map.mp hj
    rw [← hf] at he
    exact List.mem_filterMap.mpr ⟨f, hfmem, he⟩

theorem inv9_run (files : List (List α × Option ε)) (acts : List PAct) :
    Inv9 files.length (files.filterMap Prod.snd) (runP (initP files) acts) := by
  unfold runP
  have hinit := inv9_init files
  generalize initP files = s at hinit ⊢
  induction acts generalizing s with
  | nil => exact hinit
  | cons a rest ih => exact ih (stepP s a) (inv9_step _ _ s a hinit)

/-- C9 (amended): every job — also an erroring one — pushes its error (if
any) into the ErrorSlot strictly before its completion marker, so the
consumer's completed-jobs accounting is exact in every reachable state:
`done + queued markers + jobs without marker = number of files`, and an
`ok` result implies every marker was pushed and consumed.  When the
consumer does abort with an error, that error is the chronologically first
one in the ErrorSlot and was really raised by some job.  However, the
claim's "the consumer re-surfaces the first such error" does not hold
unconditionally: an error that lands after the consumer's last
error check is silently swallowed and the merge completes normally (see
the counterexample). -/
theorem C9_error_handling (files : List (List α × Option ε)) (acts : List PAct) :
    (runP (initP files) acts).done + sentCount (runP (initP files) acts).q +
        unsentCount (runP (initP files) acts).jobs = files.length ∧
    (∀ e, (runP (initP files) acts).res = some (Except.error e) →
        (runP (initP files) acts).errq.head? = some e ∧
        e ∈ files.filterMap Prod.snd) ∧
    ((runP (initP files) acts).res = some (Except.ok ()) →
        (runP (initP files) acts).done = files.length ∧
        sentCount (runP (initP files) acts).q = 0 ∧
        ∀ j ∈ (runP (initP files) acts).jobs, j.sent = true) := by
  obtain ⟨h1, h2, h3, h4, h5, h6, h7⟩ := inv9_run files acts
  refine ⟨h3, ?_, ?_⟩
  · intro e he
    have hh := h6 e he
    exact ⟨hh, h4 e (List.mem_of_mem_head? (Option.mem_def.mpr hh))⟩
  · intro hok
    have hle := h7 hok
    have hdone : (runP (initP files) acts).done = files.length := by omega
    refine ⟨hdone, by omega, ?_⟩
    have huc : unsentCount (runP (initP files) acts).jobs = 0 := by omega
    unfold unsentCount at huc
    intro j hj
    have := List.countP_eq_zero.mp huc j hj
    simpa using this

theorem C9_witness :
    (runP (initP [([1], some 7)])
        [PAct.work 0, PAct.work 0, PAct.work 0, PAct.check]).res =
      some (Except.error 7) ∧
    (runP (initP [([1], some 7)])
        [PAct.work 0, PAct.work 0, PAct.work 0, PAct.check]).errq.head? = some 7 ∧
    7 ∈ ([([1], some 7)] : List (List Nat × Option Nat)).filterMap Prod.snd :=
  ⟨by decide,
    (C9_error_handling [([1], some 7)]
      [PAct.work 0, PAct.work 0, PAct.work 0, PAct.check]).2.1 7 (by decide)⟩

/-- C9 counterexample: one file whose source raises (error `5`) after zero
lines.  Schedule: the consumer passes its error check while the slot is
still empty and blocks reading; the job then writes the error and its
completion marker; the consumer pops the marker and, at the next loop
head, `done_files = num_files` holds, so the loop exits **ok** — the
error is still sitting in the ErrorSlot and is never re-surfaced.  The
merge was not aborted, contradicting the claim that the consumer
re-surfaces the first such error. -/
theorem C9_counterexample :
    (runP (initP [(([] : List Nat), some 5)])
        [PAct.check, PAct.work 0, PAct.work 0, PAct.read, PAct.check]).res =
      some (Except.ok ()) ∧
    (runP (initP [(([] : List Nat), some 5)])
        [PAct.check, PAct.work 0, PAct.work 0, PAct.read, PAct.check]).errq = [5] := by
  decide

/-- C10 (amended): `close` only sets the cooperative stop event and returns
at once — it joins nothing and leaves every job exactly as it was, so a
worker that has not yet observed the flag is still live after `close`
returns; `close` is idempotent and safe to call repeatedly.  After the
flag is set, cancellation is cooperative and prompt at the job level: a
not-yet-completed job pushes no further data line and terminates within at
most two of its own steps, pushing only its completion marker. -/
theorem C10_close_behavior (s : PSys α ε) (i : Nat) :
    ((closeStep s).jobs = s.jobs ∧ (closeStep s).q = s.q ∧
      (closeStep s).out = s.out ∧ (closeStep s).errq = s.errq ∧
      (closeStep s).res = s.res) ∧
    closeStep (closeStep s) = closeStep s ∧
    (s.stop = true → s.res = none → ∀ j, s.jobs[i]? = some j → j.sent = false →
      (workStep (workStep s i) i).jobs[i]? = some ⟨[], none, true⟩ ∧
      qLines (workStep (workStep s i) i).q = qLines s.q ∧
      (workStep (workStep s i) i).out = s.out) := by
  refine ⟨⟨rfl, rfl, rfl, rfl, rfl⟩, rfl, ?_⟩
  intro hstop hres j hj hsent
  have hilen : i < s.jobs.length := by
    by_contra hc
    rw [List.getElem?_eq_none (by omega)] at hj
    exact Option.noConfusion hj
  have hq1 : ∀ (Q : List (QItem α)), qLines (Q ++ [QItem.sentinel]) = qLines Q := by
    intro Q
    unfold qLines
    rw [List.filterMap_append]
    simp [qLine]
  cases hrem : j.rem with
  | nil =>
    cases herr : j.err with
    | none =>
      have hstep1 : workStep s i =
          { s with jobs := s.jobs.set i ⟨[], none, true⟩, q := s.q ++ [QItem.sentinel] } := by
        unfold workStep
        rw [if_neg (by simp [hres]), hj]
        dsimp only
        rw [if_neg (by simp [hsent]), hrem]
        dsimp only
        rw [herr]
      have hget : (s.jobs.set i ⟨[], none, true⟩)[i]? = some ⟨[], none, true⟩ :=
        getElemQ_set_self s.jobs i _ hilen
      have hstep2 : workStep (workStep s i) i = workStep s i := by
        rw [hstep1]
        unfold workStep
        rw [if_neg (by simp [hres])]
        rw [show ({ s with jobs := s.jobs.set i ⟨[], none, true⟩, q := s.q ++ [QItem.sentinel] } : PSys α ε).jobs =
            s.jobs.set i ⟨[], none, true⟩ from rfl]
        rw [hget]
        dsimp only
        rw [if_pos rfl]
      rw [hstep2, hstep1]
      exact ⟨hget, hq1 s.q, rfl⟩
    | some e =>
      have hstep1 : workStep s i =
          { s with jobs := s.jobs.set i ⟨[], none, false⟩, errq := s.errq ++ [e] } := by
        unfold workStep
        rw [if_neg (by simp [hres]), hj]
        dsimp only
        rw [if_neg (by simp [hsent]), hrem]
        dsimp only
        rw [herr]
      have hget : (s.jobs.set i ⟨[], none, false⟩)[i]? = some ⟨[], none, false⟩ :=
        getElemQ_set_self s.jobs i _ hilen
      have hstep2 : workStep (workStep s i) i =
          { s with jobs := (s.jobs.set i ⟨[], none, false⟩).set i ⟨[], none, true⟩, errq := s.errq ++ [e], q := s.q ++ [QItem.sentinel] } := by
        rw [hstep1]
        unfold workStep
        rw [if_neg (by simp [hres])]
        rw [show ({ s with jobs := s.jobs.set i ⟨[], none, false⟩, errq := s.errq ++ [e] } : PSys α ε).jobs =
            s.jobs.set i ⟨[], none, false⟩ from rfl]
        rw [hget]
        dsimp only
        rw [if_neg (by simp)]
      rw [hstep2]
      refine ⟨?_, hq1 s.q, rfl⟩
      rw [List.set_set]
      exact getElemQ_set_self s.jobs i _ hilen
  | cons l ls =>
    have hstep1 : workStep s i =
        { s with jobs := s.jobs.set i ⟨[], none, false⟩ } := by
      unfold workStep
      rw [if_neg (by simp [hres]), hj]
      dsimp only
      rw [if_neg (by simp [hsent]), hrem]
      dsimp only
      rw [if_pos hstop]
    have hget : (s.jobs.set i ⟨[], none, false⟩)[i]? = some ⟨[], none, false⟩ :=
      getElemQ_set_self s.jobs i _ hilen
    have hstep2 : workStep (workStep s i) i =
        { s with jobs := (s.jobs.set i ⟨[], none, false⟩).set i ⟨[], none, true⟩, q := s.q ++ [QItem.sentinel] } := by
      rw [hstep1]
      unfold workStep
      rw [if_neg (by simp [hres])]
      rw [show ({ s with jobs := s.jobs.set i ⟨[], none, false⟩ } : PSys α ε).jobs =
          s.jobs.set i ⟨[], none, false⟩ from rfl]
      rw [hget]
      dsimp only
      rw [if_neg (by simp)]
    rw [hstep2]
    refine ⟨?_, hq1 s.q, rfl⟩
    rw [List.set_set]
    exact getElemQ_set_self s.jobs i _ hilen

theorem C10_witness :
    ((closeStep (initP [([1], (none : Option Nat))])).stop = true ∧
      (closeStep (initP [([1], (none : Option Nat))])).res = none ∧
      (closeStep (initP [([1], (none : Option Nat))])).jobs[0]? =
        some ⟨[1], none, false⟩) ∧
    (workStep (workStep (closeStep (initP [([1], (none : Option Nat))])) 0) 0).jobs[0]? =
        some ⟨[], none, true⟩ ∧
    qLines (workStep (workStep (closeStep (initP [([1], (none : Option Nat))])) 0) 0).q =
        qLines (closeStep (initP [([1], (none : Option Nat))])).q ∧
    (workStep (workStep (closeStep (initP [([1], (none : Option Nat))])) 0) 0).out =
        (closeStep (initP [([1], (none : Option Nat))])).out :=
  ⟨⟨by decide, by decide, by decide⟩,
    (C10_close_behavior (closeStep (initP [([1], (none : Option Nat))])) 0).2.2
      (by decide) (by decide) ⟨[1], none, false⟩ (by decide) (by decide)⟩

/-- C10 counterexample: `close` on a freshly constructed reader with one
unconsumed file returns immediately having only set the stop flag: the
job is untouched — it has pushed no completion marker and still holds its
input, i.e. a running worker remains after `close` returns, contradicting
"waits for all jobs to terminate before returning and leaves no running
worker afterward". -/
theorem C10_counterexample :
    (closeStep (initP [([1], (none : Option Nat))])).jobs =
      [⟨[1], none, false⟩] ∧
    unsentCount (closeStep (initP [([1], (none : Option Nat))])).jobs = 1 := by
  decide

/-! ### Line provenance for the parallel reader (claim C1)

To speak about per-file ordering, each line is tagged with its file index:
file `i` of a directory `ls : List (List β)` contributes the lines
`(i, b)` for `b ∈ ls[i]`.  The tag is part of the modelled data only; it
does not influence any transition. -/

def tagF (ls : List (List β)) (i : Nat) : List (Nat × β) :=
  (ls.getD i []).map (fun b => (i, b))

/-- `ParallelLineIterator.__iter__` started over directory `ls`, with every
line tagged by its file index and no source errors (well-formed files).
This is the merge as `multiple_files_lines_iterator` drives it; the
reader's own `_line_stream` parallel branch never reaches this point
because its `with`-statement entry raises first (see `lineStreamParallel`
and claim C1). -/
def initTagged (ls : List (List β)) : PSys (Nat × β) Unit :=
  initP ((List.range ls.length).map (fun i => (tagF ls i, none)))

def outF (i : Nat) (l : List (Nat × β)) : List (Nat × β) :=
  l.filter (fun p => p.1 == i)

def qLinesF (i : Nat) (q : List (QItem (Nat × β))) : List (Nat × β) :=
  (qLines q).filter (fun p => p.1 == i)

def remOf (jobs : List (Job (Nat × β) ε)) (i : Nat) : List (Nat × β) :=
  match jobs[i]? with
  | some j => j.rem
  | none => []

theorem qLines_concat_line (q : List (QItem (Nat × β))) (p : Nat × β) :
    qLines (q ++ [QItem.line p]) = qLines q ++ [p] := by
  unfold qLines
  rw [List.filterMap_append]
  simp [qLine]

theorem qLines_concat_sent (q : List (QItem (Nat × β))) :
    qLines (q ++ [QItem.sentinel]) = qLines q := by
  unfold qLines
  rw [List.filterMap_append]
  simp [qLine]

/-- The conservation and ordering invariant of an error-free,
uncancelled parallel run: for every file, the lines already yielded, the
lines still queued and the lines the job has not yet pushed — each in
order — concatenate to exactly that file's lines; all queued lines of an
already-completed file precede that file's completion marker in the
queue. -/
def InvC1 (ls : List (List β)) (s : PSys (Nat × β) Unit) : Prop :=
  s.jobs.length = ls.length ∧
  s.stop = false ∧
  s.errq = [] ∧
  (∀ j ∈ s.jobs, j.err = none) ∧
  (∀ j ∈ s.jobs, j.sent = true → j.rem = []) ∧
  (∀ (i : Nat) (j : Job (Nat × β) Unit), s.jobs[i]? = some j →
    ∀ p ∈ j.rem, p.1 = i) ∧
  (∀ p, QItem.line p ∈ s.q → p.1 < ls.length) ∧
  (∀ p ∈ s.out, p.1 < ls.length) ∧
  (∀ i, i < ls.length →
    outF i s.out ++ qLinesF i s.q ++ remOf s.jobs i = tagF ls i) ∧
  (∀ (i : Nat) (j : Job (Nat × β) Unit), s.jobs[i]? = some j → j.sent = true →
    ∀ t, t <:+ s.q → QItem.sentinel ∉ t → ∀ b, QItem.line (i, b) ∉ t)

theorem initTagged_jobs (ls : List (List β)) (i : Nat) (h : i < ls.length) :
    (initTagged ls).jobs[i]? = some ⟨tagF ls i, none, false⟩ := by
  unfold initTagged initP
  simp only [List.getElem?_map]
  rw [List.getElem?_range (by simpa using h)]
  rfl

theorem invC1_init (ls : List (List β)) : InvC1 ls (initTagged ls) := by
  have hjobs : ∀ i j, (initTagged ls).jobs[i]? = some j →
      i < ls.length ∧ j = ⟨tagF ls i, none, false⟩ := by
    intro i j hij
    have hlen : (initTagged ls).jobs.length = ls.length := by
      simp [initTagged, initP]
    have hi : i < ls.length := by
      by_contra hc
      rw [List.getElem?_eq_none (by omega)] at hij
      exact Option.noConfusion hij
    rw [initTagged_jobs ls i hi] at hij
    exact ⟨hi, (Option.some.injEq _ _).mp hij.symm⟩
  refine ⟨by simp [initTagged, initP], rfl, rfl, ?_, ?_, ?_, ?_, ?_, ?_, ?_⟩
  · intro j hj
    obtain ⟨f, hfmem, hf⟩ := List.mem_map.mp hj
    obtain ⟨i, -, hi⟩ := List.mem_map.mp hfmem
    rw [← hf, ← hi]
  · intro j hj
    obtain ⟨f, hfmem, hf⟩ := List.mem_map.mp hj
    obtain ⟨i, -, hi⟩ := List.mem_map.mp hfmem
    rw [← hf, ← hi]
    intro hcontra
    exact absurd hcontra (by simp)
  · intro i j hij
    obtain ⟨-, hj⟩ := hjobs i j hij
    rw [hj]
    intro p hp
    obtain ⟨b, -, hb⟩ := List.mem_map.mp hp
    rw [← hb]
  · intro p hp
    simp [initTagged, initP] at hp
  · intro p hp
    simp [initTagged, initP] at hp
  · intro i hi
    show outF i [] ++ qLinesF i [] ++ remOf (initTagged ls).jobs i = tagF ls i
    rw [show remOf (initTagged ls).jobs i = (⟨tagF ls i, none, false⟩ : Job (Nat × β) Unit).rem from by
      unfold remOf
      rw [initTagged_jobs ls i hi]]
    rfl
  · intro i j hij hsent
    obtain ⟨-, hj⟩ := hjobs i j hij
    rw [hj] at hsent
    exact absurd hsent (by simp)

theorem invC1_step (ls : List (List β)) (s : PSys (Nat × β) Unit) (a : PAct)
    (ha : a ≠ PAct.close) (h : InvC1 ls s) : InvC1 ls (stepP s a) := by
  obtain ⟨h1, h2, h3, h4, h5, h6, h7, h8, h9, h10⟩ := h
  cases a with
  | close => exact absurd rfl ha
  | check =>
    show InvC1 ls (checkStep s)
    unfold checkStep
    by_cases hres : s.res.isSome
    · rw [if_pos hres]; exact ⟨h1, h2, h3, h4, h5, h6, h7, h8, h9, h10⟩
    · rw [if_neg hres]
      by_cases hrd : s.reading
      · rw [if_pos hrd]; exact ⟨h1, h2, h3, h4, h5, h6, h7, h8, h9, h10⟩
      · rw [if_neg hrd]
        by_cases hdone : s.numFiles ≤ s.done
        · rw [if_pos hdone]; exact ⟨h1, h2, h3, h4, h5, h6, h7, h8, h9, h10⟩
        · rw [if_neg hdone]
          rw [h3]
          dsimp only
          exact ⟨h1, h2, rfl, h4, h5, h6, h7, h8, h9, h10⟩
  | read =>
    show InvC1 ls (readStep s)
    unfold readStep
    by_cases hres : s.res.isSome
    · rw [if_pos hres]; exact ⟨h1, h2, h3, h4, h5, h6, h7, h8, h9, h10⟩
    · rw [if_neg hres]
      by_cases hrd : s.reading = false
      · rw [if_pos hrd]; exact ⟨h1, h2, h3, h4, h5, h6, h7, h8, h9, h10⟩
      · rw [if_neg hrd]
        cases hq : s.q with
        | nil =>
          dsimp only
          exact ⟨h1, h2, h3, h4, h5, h6, by rw [← hq]; exact h7, h8,
            by rw [← hq]; exact h9, by rw [← hq]; exact h10⟩
        | cons item rest =>
          have hqlem : ∀ t : List (QItem (Nat × β)), t <:+ rest → t <:+ s.q := by
            intro t ht
            rw [hq]
            exact suffix_cons ht
          cases item with
          | sentinel =>
            dsimp only
            have hql : qLines s.q = qLines rest := by
              rw [hq]; rfl
            refine ⟨h1, h2, h3, h4, h5, h6, ?_, h8, ?_, ?_⟩
            · intro p hp
              exact h7 p (by rw [hq]; exact List.mem_cons_of_mem _ hp)
            · intro i hi
              have := h9 i hi
              unfold qLinesF at this ⊢
              rw [hql] at this
              exact this
            · intro i j hij hsent t ht hnos b
              exact h10 i j hij hsent t (hqlem t ht) hnos b
          | line p0 =>
            dsimp only
            have hp0 : p0.1 < ls.length :=
              h7 p0 (by rw [hq]; exact List.mem_cons_self _ _)
            have hql : qLines s.q = p0 :: qLines rest := by
              rw [hq]; rfl
            refine ⟨h1, h2, h3, h4, h5, h6, ?_, ?_, ?_, ?_⟩
            · intro p hp
              exact h7 p (by rw [hq]; exact List.mem_cons_of_mem _ hp)
            · intro p hp
              rcases List.mem_append.mp hp with hp | hp
              · exact h8 p hp
              · rw [List.mem_singleton.mp hp]
                exact hp0
            · intro i hi
              have h9i := h9 i hi
              unfold outF qLinesF at h9i ⊢
              rw [hql, List.filter_cons] at h9i
              rw [List.filter_append]
              by_cases hpi : (p0.1 == i) = true
              · rw [if_pos hpi] at h9i
                rw [show List.filter (fun p => p.1 == i) [p0] = [p0] from by
                  simp [hpi]]
                rw [← h9i]
                simp [List.append_assoc]
              · rw [if_neg hpi] at h9i
                rw [show List.filter (fun p => p.1 == i) [p0] = [] from by
                  simp [hpi]]
                rw [← h9i]
                simp
            · intro i j hij hsent t ht hnos b
              exact h10 i j hij hsent t (hqlem t ht) hnos b
  | work i0 =>
    show InvC1 ls (workStep s i0)
    unfold workStep
    by_cases hres : s.res.isSome
    · rw [if_pos hres]; exact ⟨h1, h2, h3, h4, h5, h6, h7, h8, h9, h10⟩
    · rw [if_neg hres]
      cases hj : s.jobs[i0]? with
      | none => exact ⟨h1, h2, h3, h4, h5, h6, h7, h8, h9, h10⟩
      | some j =>
        dsimp only
        by_cases hsent : j.sent
        · rw [if_pos hsent]; exact ⟨h1, h2, h3, h4, h5, h6, h7, h8, h9, h10⟩
        · rw [if_neg hsent]
          have hjmem : j ∈ s.jobs := mem_of_getElemQ hj
          have hi0len : i0 < s.jobs.length := by
            by_contra hc
            rw [List.getElem?_eq_none (by omega)] at hj
            exact Option.noConfusion hj
          have hi0N : i0 < ls.length := by omega
          cases hrem : j.rem with
          | cons p ls0 =>
            dsimp only
            rw [if_neg (by simp [h2])]
            have htag : p.1 = i0 :=
              h6 i0 j hj p (by rw [hrem]; exact List.mem_cons_self _ _)
            refine ⟨by simpa using h1, h2, h3, ?_, ?_, ?_, ?_, h8, ?_, ?_⟩
            · intro jx hjx
              rcases List.mem_or_eq_of_mem_set hjx with hmem | heq
              · exact h4 jx hmem
              · rw [heq]
                exact h4 j hjmem
            · intro jx hjx hxs
              rcases List.mem_or_eq_of_mem_set hjx with hmem | heq
              · exact h5 jx hmem hxs
              · rw [heq] at hxs
                exact absurd hxs (by simp)
            · intro k jk hjk
              by_cases hk : i0 = k
              · subst hk
                rw [getElemQ_set_self s.jobs i0 _ hi0len] at hjk
                have hjk2 : jk = ⟨ls0, j.err, false⟩ :=
                  (Option.some.injEq _ _).mp hjk.symm
                rw [hjk2]
                intro px hpx
                exact h6 i0 j hj px (by rw [hrem]; exact List.mem_cons_of_mem _ hpx)
              · rw [getElemQ_set_ne s.jobs i0 k _ hk] at hjk
                exact h6 k jk hjk
            · intro px hpx
              rcases List.mem_append.mp hpx with hmem | hsing
              · exact h7 px hmem
              · have : QItem.line px = QItem.line p := List.mem_singleton.mp hsing
                have hpx2 : px = p := by
                  injection this
                rw [hpx2, htag]
                exact hi0N
            · intro i hi
              have h9i := h9 i hi
              unfold outF qLinesF at h9i ⊢
              rw [qLines_concat_line, List.filter_append]
              by_cases hk : i = i0
              · subst hk
                have hrm : remOf s.jobs i = j.rem := by
                  unfold remOf
                  rw [hj]
                have hrm2 : remOf (s.jobs.set i ⟨ls0, j.err, false⟩) i = ls0 := by
                  unfold remOf
                  rw [getElemQ_set_self s.jobs i _ hi0len]
                rw [hrm2]
                rw [hrm, hrem] at h9i
                rw [show List.filter (fun q => q.1 == i) [p] = [p] from by
                  simp [htag]]
                rw [← h9i]
                simp [List.append_assoc]
              · have hrm2 : remOf (s.jobs.set i0 ⟨ls0, j.err, false⟩) i =
                    remOf s.jobs i := by
                  unfold remOf
                  rw [getElemQ_set_ne s.jobs i0 i _ (fun hc => hk hc.symm)]
                rw [hrm2]
                rw [show List.filter (fun q => q.1 == i) [p] = [] from by
                  simp only [List.filter_cons, List.filter_nil]
                  rw [if_neg (by simp [htag]; omega)]]
                rw [← h9i]
                simp
            · intro k jk hjk hks t ht hnos b
              by_cases hk : i0 = k
              · subst hk
                rw [getElemQ_set_self s.jobs i0 _ hi0len] at hjk
                have : jk = ⟨ls0, j.err, false⟩ := (Option.some.injEq _ _).mp hjk.symm
                rw [this] at hks
                exact absurd hks (by simp)
              · rw [getElemQ_set_ne s.jobs i0 k _ hk] at hjk
                rcases suffix_concat_cases ht with hte | ⟨u, hu, hte⟩
                · rw [hte]
                  exact List.not_mem_nil _
                · rw [hte]
                  intro hmem
                  rcases List.mem_append.mp hmem with hmem | hsing
                  · exact h10 k jk hjk hks u hu
                      (fun hc => hnos (hte ▸ List.mem_append_left _ hc)) b hmem
                  · have : QItem.line (k, b) = QItem.line p := List.mem_singleton.mp hsing
                    have hkb : (k, b) = p := by injection this
                    have : k = i0 := by
                      rw [← htag, ← hkb]
                    exact hk this.symm
          | nil =>
            dsimp only
            cases herr : j.err with
            | some e =>
              have h4j := h4 j hjmem
              rw [herr] at h4j
              exact Option.noConfusion h4j
            | none =>
              dsimp only
              refine ⟨by simpa using h1, h2, h3, ?_, ?_, ?_, ?_, h8, ?_, ?_⟩
              · intro jx hjx
                rcases List.mem_or_eq_of_mem_set hjx with hmem | heq
                · exact h4 jx hmem
                · rw [heq]
              · intro jx hjx hxs
                rcases List.mem_or_eq_of_mem_set hjx with hmem | heq
                · exact h5 jx hmem hxs
                · rw [heq]
              · intro k jk hjk
                by_cases hk : i0 = k
                · subst hk
                  rw [getElemQ_set_self s.jobs i0 _ hi0len] at hjk
                  have : jk = ⟨[], none, true⟩ := (Option.some.injEq _ _).mp hjk.symm
                  rw [this]
                  intro px hpx
                  exact absurd hpx (List.not_mem_nil px)
                · rw [getElemQ_set_ne s.jobs i0 k _ hk] at hjk
                  exact h6 k jk hjk
              · intro px hpx
                rcases List.mem_append.mp hpx with hmem | hsing
                · exact h7 px hmem
                · exact absurd (List.mem_singleton.mp hsing) (by simp)
              · intro i hi
                have h9i := h9 i hi
                unfold qLinesF at h9i ⊢
                rw [qLines_concat_sent]
                have hrm : remOf (s.jobs.set i0 ⟨[], none, true⟩) i = remOf s.jobs i := by
                  by_cases hk : i0 = i
                  · subst hk
                    unfold remOf
                    rw [getElemQ_set_self s.jobs i0 _ hi0len, hj]
                    dsimp only
                    rw [hrem]
                  · unfold remOf
                    rw [getElemQ_set_ne s.jobs i0 i _ hk]
                rw [hrm]
                exact h9i
              · intro k jk hjk hks t ht hnos b
                rcases suffix_concat_cases ht with hte | ⟨u, hu, hte⟩
                · rw [hte]
                  exact List.not_mem_nil _
                · exfalso
                  apply hnos
                  rw [hte]
                  exact List.mem_append_right _ (List.mem_singleton_self _)

theorem invC1_run (ls : List (List β)) :
    ∀ (acts : List PAct) (s : PSys (Nat × β) Unit), PAct.close ∉ acts →
      InvC1 ls s → InvC1 ls (List.foldl stepP s acts) := by
  intro acts
  induction acts with
  | nil => intro s _ h; exact h
  | cons a rest ih =>
    intro s hcl h
    have hna : a ≠ PAct.close := fun hc => hcl (hc ▸ List.mem_cons_self a rest)
    have hrest : PAct.close ∉ rest := fun hc => hcl (List.mem_cons_of_mem a hc)
    exact ih (stepP s a) hrest (invC1_step ls s a hna h)

theorem map_flatten_eq (f : γ → δ) :
    ∀ (L : List (List γ)), L.flatten.map f = (L.map (List.map f)).flatten := by
  intro L
  induction L with
  | nil => rfl
  | cons a t ih =>
    simp only [List.flatten_cons, List.map_append, List.map_cons, ih]

theorem range_map_getD (l : List γ) (d : γ) :
    (List.range l.length).map (fun i => l.getD i d) = l := by
  induction l with
  | nil => rfl
  | cons a t ih =>
    rw [show (a :: t).length = t.length + 1 from rfl, List.range_succ_eq_map]
    rw [List.map_cons, List.map_map]
    rw [show ((fun i => (a :: t).getD i d) ∘ Nat.succ) = (fun i => t.getD i d) from by
      funext i
      simp [List.getD_cons_succ]]
    rw [ih]
    rfl

/-- A list whose tag-`i` sublists agree with `blocks i` for every tag `i`
below `N`, and whose tags are all below `N`, is a permutation of the
concatenation of the blocks. -/
theorem perm_of_filters (β : Type) :
    ∀ (N : Nat) (L : List (Nat × β)) (blocks : Nat → List (Nat × β)),
      (∀ p ∈ L, p.1 < N) →
      (∀ i, i < N → L.filter (fun p => p.1 == i) = blocks i) →
      List.Perm L (((List.range N).map blocks).flatten) := by
  intro N
  induction N with
  | zero =>
    intro L blocks hlt hf
    have hL : L = [] := by
      cases L with
      | nil => rfl
      | cons p t => exact absurd (hlt p (List.mem_cons_self p t)) (by omega)
    rw [hL]
    simp
  | succ N ih =>
    intro L blocks hlt hf
    have hperm1 : List.Perm L
        (L.filter (fun p => p.1 == N) ++ L.filter (fun p => !(p.1 == N))) :=
      (List.filter_append_perm _ L).symm
    have hL2 : ∀ p ∈ L.filter (fun p => !(p.1 == N)), p.1 < N := by
      intro p hp
      have hm := List.mem_of_mem_filter hp
      have hb := List.of_mem_filter hp
      have hne : ¬ p.1 = N := by simpa using hb
      have := hlt p hm
      omega
    have hf2 : ∀ i, i < N →
        (L.filter (fun p => !(p.1 == N))).filter (fun p => p.1 == i) = blocks i := by
      intro i hi
      rw [List.filter_filter]
      rw [← hf i (by omega)]
      apply List.filter_congr
      intro p hp
      by_cases hpi : p.1 = i
      · have hiN : ¬ i = N := by omega
        simp [hpi, hiN]
      · simp [hpi]
    have ihh := ih (L.filter (fun p => !(p.1 == N))) blocks hL2 hf2
    have hstep : List.Perm L
        (L.filter (fun p => !(p.1 == N)) ++ L.filter (fun p => p.1 == N)) :=
      hperm1.trans (List.perm_append_comm)
    have hfin : List.Perm
        (L.filter (fun p => !(p.1 == N)) ++ L.filter (fun p => p.1 == N))
        ((((List.range N).map blocks).flatten) ++ blocks N) :=
      List.Perm.append ihh (by rw [hf N (by omega)])
    have := hstep.trans hfin
    rw [List.range_succ, List.map_append, List.flatten_append]
    simpa using this

/-- The merge of `ParallelLineIterator.__iter__` (as driven correctly by
`multiple_files_lines_iterator`): for every directory of well-formed files
and every complete error-free, uncancelled run (the consumer loop
terminated normally), the lines yielded are a permutation of the
sequential strategy's output; the order within each file is preserved
exactly; and decoding each line preserves the multiset equality.
Interleaving across files is schedule-dependent — no cross-file order is
guaranteed (two schedules yielding different interleavings are exhibited
in `parallelIterator_complete_run_demo`).  This is the behavior the spec
ascribes to the reader's parallel strategy; the reader itself never
reaches it (see `C1_parallel_strategy_raises`). -/
theorem parallelIterator_complete_run (β γ : Type) (ls : List (List β)) (acts : List PAct)
    (dec : β → γ) (hclose : PAct.close ∉ acts)
    (hok : (runP (initTagged ls) acts).res = some (Except.ok ())) :
    List.Perm ((runP (initTagged ls) acts).out.map Prod.snd)
      (lineStreamSequential ls) ∧
    (∀ i, i < ls.length →
      ((runP (initTagged ls) acts).out.filter (fun p => p.1 == i)).map Prod.snd =
        ls.getD i []) ∧
    List.Perm (((runP (initTagged ls) acts).out.map Prod.snd).map dec)
      ((lineStreamSequential ls).map dec) := by
  unfold runP
  unfold runP at hok
  obtain ⟨h1, h2, h3, h4, h5, h6, h7, h8, h9, h10⟩ :=
    invC1_run ls acts (initTagged ls) hclose (invC1_init ls)
  obtain ⟨g1, g2, g3, g4, g5, g6, g7⟩ :=
    inv9_run ((List.range ls.length).map (fun i => (tagF ls i, (none : Option Unit))))
      acts
  have hstate : runP
      (initP ((List.range ls.length).map (fun i => (tagF ls i, (none : Option Unit)))))
      acts = List.foldl stepP (initTagged ls) acts := rfl
  rw [hstate] at g3 g7
  have hfl : ((List.range ls.length).map
      (fun i => (tagF ls i, (none : Option Unit)))).length = ls.length := by simp
  rw [hfl] at g3
  have hdge := g7 hok
  rw [hfl] at hdge
  have hsc : sentCount (List.foldl stepP (initTagged ls) acts).q = 0 := by omega
  have huc : unsentCount (List.foldl stepP (initTagged ls) acts).jobs = 0 := by omega
  have hallsent : ∀ j ∈ (List.foldl stepP (initTagged ls) acts).jobs,
      j.sent = true := by
    intro j hj
    have := List.countP_eq_zero.mp huc j hj
    simpa using this
  have hnos : QItem.sentinel ∉ (List.foldl stepP (initTagged ls) acts).q := by
    intro hmem
    have := List.countP_eq_zero.mp hsc _ hmem
    simp [isSentinel] at this
  have hqnil : qLines (List.foldl stepP (initTagged ls) acts).q = [] := by
    cases hx : qLines (List.foldl stepP (initTagged ls) acts).q with
    | nil => rfl
    | cons x xs =>
      exfalso
      have hxm : x ∈ qLines (List.foldl stepP (initTagged ls) acts).q := by
        rw [hx]
        exact List.mem_cons_self _ _
      obtain ⟨item, hitem, hqi⟩ := List.mem_filterMap.mp hxm
      cases item with
      | sentinel => simp [qLine] at hqi
      | line px =>
        have hpx : px = x := by simpa [qLine] using hqi
        subst hpx
        have hlt := h7 px hitem
        have hjlen : px.1 < (List.foldl stepP (initTagged ls) acts).jobs.length := by
          omega
        have hjj := List.getElem?_eq_getElem hjlen
        have hjmem := List.getElem_mem hjlen
        have hsent := hallsent _ hjmem
        have hnol := h10 px.1 _ hjj hsent
          (List.foldl stepP (initTagged ls) acts).q (List.suffix_refl _) hnos px.2
        rw [Prod.mk.eta] at hnol
        exact hnol hitem
  have houtF : ∀ i, i < ls.length →
      outF i (List.foldl stepP (initTagged ls) acts).out = tagF ls i := by
    intro i hi
    have h9i := h9 i hi
    unfold qLinesF at h9i
    rw [hqnil] at h9i
    have hjlen : i < (List.foldl stepP (initTagged ls) acts).jobs.length := by omega
    have hrm : remOf (List.foldl stepP (initTagged ls) acts).jobs i = [] := by
      unfold remOf
      rw [List.getElem?_eq_getElem hjlen]
      exact h5 _ (List.getElem_mem hjlen) (hallsent _ (List.getElem_mem hjlen))
    rw [hrm] at h9i
    simpa using h9i
  have hper : ∀ i, i < ls.length →
      (((List.foldl stepP (initTagged ls) acts).out.filter
        (fun p => p.1 == i)).map Prod.snd) = ls.getD i [] := by
    intro i hi
    have hh := houtF i hi
    unfold outF at hh
    rw [hh]
    unfold tagF
    rw [List.map_map]
    simp
  have hperm := perm_of_filters β ls.length
    (List.foldl stepP (initTagged ls) acts).out (tagF ls) h8
    (fun i hi => houtF i hi)
  have htagflat : (((List.range ls.length).map (tagF ls)).flatten).map Prod.snd =
      ls.flatten := by
    rw [map_flatten_eq, List.map_map]
    rw [show (List.map Prod.snd ∘ tagF ls) = (fun i => ls.getD i []) from by
      funext i
      simp [Function.comp, tagF]]
    rw [range_map_getD ls []]
  have hmain : List.Perm
      ((List.foldl stepP (initTagged ls) acts).out.map Prod.snd) ls.flatten := by
    have := hperm.map Prod.snd
    rw [htagflat] at this
    exact this
  exact ⟨hmain, hper, hmain.map dec⟩

def lsC1 : List (List Nat) := [[10], [20]]

def schedA : List PAct :=
  [PAct.work 0, PAct.work 0, PAct.work 1, PAct.work 1,
   PAct.check, PAct.read, PAct.check, PAct.read,
   PAct.check, PAct.read, PAct.check, PAct.read, PAct.check]

def schedB : List PAct :=
  [PAct.work 1, PAct.work 1, PAct.work 0, PAct.work 0,
   PAct.check, PAct.read, PAct.check, PAct.read,
   PAct.check, PAct.read, PAct.check, PAct.read, PAct.check]

theorem parallelIterator_complete_run_demo :
    (PAct.close ∉ schedA ∧
      (runP (initTagged lsC1) schedA).res = some (Except.ok ())) ∧
    (List.Perm ((runP (initTagged lsC1) schedA).out.map Prod.snd)
        (lineStreamSequential lsC1) ∧
      (∀ i, i < lsC1.length →
        ((runP (initTagged lsC1) schedA).out.filter (fun p => p.1 == i)).map
            Prod.snd = lsC1.getD i []) ∧
      List.Perm (((runP (initTagged lsC1) schedA).out.map Prod.snd).map id)
        ((lineStreamSequential lsC1).map id)) ∧
    (runP (initTagged lsC1) schedA).out.map Prod.snd = [10, 20] ∧
    (runP (initTagged lsC1) schedB).out.map Prod.snd = [20, 10] :=
  ⟨⟨by decide, by decide⟩,
    parallelIterator_complete_run Nat Nat lsC1 schedA id (by decide) (by decide),
    by decide, by decide⟩

/-- The attribute (method) names class `ParallelLineIterator` defines in
io.py: `__init__`, `__iter__` and `close` — in particular neither
`__enter__` nor `__exit__`. -/
def parallelLineIteratorAttrs : List String :=
  ["__init__", "__iter__", "close"]

/-- Python `with obj:` entry: the object's class must provide the context
manager protocol, both enter and exit methods; when either is missing the
statement raises a `TypeError` before any of the body runs. -/
def enterWith (attrs : List String) : Except String Unit :=
  if ("__enter__" ∈ attrs) ∧ ("__exit__" ∈ attrs) then Except.ok ()
  else Except.error ("TypeError")

/-- `_line_stream` with `read_strategy="parallel"` (readers.py): the
returned generator's body is
`with ParallelLineIterator(self.files, max_workers=self.num_workers) as lines: ...`,
so its first advance executes the `with` entry.  Only if that entry
succeeded would the `ParallelLineIterator.__iter__` merge — modelled by
`runP` over `initTagged`, with the schedule resolving the thread
interleaving — produce the lines. -/
def lineStreamParallel (ls : List (List β)) (acts : List PAct) :
    Except String (List (Nat × β)) :=
  match enterWith parallelLineIteratorAttrs with
  | Except.error e => Except.error e
  | Except.ok () => Except.ok (runP (initTagged ls) acts).out

/-- C1 (code bug): iterating a `JsonlDatasetReader` constructed with
`read_strategy="parallel"` (the default) never yields anything, for every
directory and every thread schedule: `_line_stream`'s parallel branch
enters `ParallelLineIterator` with a `with` statement, but the class
defines no enter/exit methods, so the generator's first advance raises a
`TypeError` instead of yielding records — it cannot produce the
sequential strategy's multiset.  The claimed property is evidently the
intent: the underlying `ParallelLineIterator.__iter__` merge itself has it
(`parallelIterator_complete_run`), and `multiple_files_lines_iterator` in
io.py drives that merge correctly via `try/finally`; only the reader's
`with` entry is broken.  Concretely, on the two-file directory `lsC1` the
sequential strategy yields its two lines while the parallel strategy
raises. -/
theorem C1_parallel_strategy_raises :
    (∀ (β : Type) (ls : List (List β)) (acts : List PAct),
      lineStreamParallel ls acts = Except.error ("TypeError")) ∧
    enterWith parallelLineIteratorAttrs = Except.error ("TypeError") ∧
    lineStreamParallel lsC1 schedA = Except.error ("TypeError") ∧
    lineStreamSequential lsC1 = [10, 20] := by
  refine ⟨?_, by decide, by decide, by decide⟩
  intro β ls acts
  rfl
